import Mathlib

/-!
Shallow embedding of the ASHA (asynchronous successive halving) searcher
from `master/pkg/searcher/asha.go`, together with proofs of the spec's
claims about it.

Modelling conventions:
* `RequestID`s are `Nat`s; fresh ids are drawn from a monotone counter
  (`ctx`), matching the spec's "assign from a monotonic counter".
* Go `float64` metric values are modelled as exact rationals `ℚ`; the code
  only ever compares and negates metrics, so this is faithful for every
  non-NaN input.
* Go's `int(float64(n) / divisor)` truncating conversions are modelled as
  exact truncated division, computed on the numerator/denominator of the
  rational divisor (for the positive divisors of every claim, truncation
  toward zero and floor coincide).
* Go maps are association lists (`mapGetD` returns the zero value for a
  missing key, exactly like a Go map read); Go `map[RequestID]bool` sets
  are lists of ids.
* The mutually recursive `promote` is written with an explicit fuel
  parameter; the public entry points pass `numRungs` fuel, which is enough
  for the recursion (each recursive call moves the trial one rung up, and
  the recursion stops at the top rung).
-/

set_option maxRecDepth 40000

namespace Searcher

/-- Operation stream item (spec section 6): the concrete Go operation structs
(`Create`, `WorkloadOperation`, `Close`) live outside `src/`; fields kept are the
ones the searcher determines. -/
inductive Operation where
  | create (requestID : Nat)
  | train (requestID : Nat) (startStep : Nat) (endStep : Nat)
  | validate (requestID : Nat) (stepID : Nat)
  | close (requestID : Nat)
deriving DecidableEq, Repr

/-- Modelled from the spec: `trainAndValidate(id, from, to)` (not in `src/`) emits a
`Train(from → to)` followed by a `Validate(at to)` for the trial. -/
def trainAndValidate (requestID startStep endStep : Nat) : List Operation :=
  [Operation.train requestID startStep endStep, Operation.validate requestID endStep]

/-- Modelled from the spec: the `trialMetric` record (struct defined outside `src/`,
fields exactly as used by asha.go and spec section 3 `TrialMetric`). -/
structure trialMetric where
  requestID : Nat
  metric : ℚ
  promoted : Bool
  closed : Bool
deriving DecidableEq, Inhabited, Repr

/-- Modelled from the spec: the `rung` record (struct defined outside `src/`, fields
exactly as used by asha.go and spec section 3 `Rung`). `outstandingTrials` is a Go
`int` and may in principle go negative, hence `Int`. -/
structure rung where
  stepsNeeded : Nat
  outstandingTrials : Int
  metrics : List trialMetric
deriving DecidableEq, Inhabited, Repr

/-- The fields of `model.AsyncHalvingConfig` read by asha.go. -/
structure AsyncHalvingConfig where
  metric : String
  smallerIsBetter : Bool
  numRungs : Nat
  targetTrialSteps : Nat
  maxTrials : Nat
  divisor : ℚ
  maxConcurrentTrials : Nat
deriving DecidableEq, Repr

/-- The searcher state `asyncHalvingSearch`.  Go embeds the config and keeps a
separate copy `maxTrials := config.MaxTrials`; we mirror both fields. -/
structure asyncHalvingSearch where
  config : AsyncHalvingConfig
  rungs : List rung
  trialRungs : List (Nat × Nat)
  earlyExitTrials : List Nat
  maxTrials : Nat
  trialsCompleted : Nat
deriving DecidableEq, Repr

/-- Go map read `m[k]` with default (zero value) `d`. -/
def mapGetD (m : List (Nat × Nat)) (k : Nat) (d : Nat) : Nat :=
  match m.find? (fun p => p.1 == k) with
  | some p => p.2
  | none => d

/-- Go map key test. -/
def mapContains (m : List (Nat × Nat)) (k : Nat) : Bool :=
  m.any (fun p => p.1 == k)

/-- Go map write `m[k] = v`. -/
def mapInsert (m : List (Nat × Nat)) (k v : Nat) : List (Nat × Nat) :=
  if mapContains m k then m.map (fun p => if p.1 == k then (k, v) else p)
  else m ++ [(k, v)]

/-- Go set write `m[x] = true` for a `map[RequestID]bool`. -/
def insertUnique (l : List Nat) (x : Nat) : List Nat :=
  if l.contains x then l else l ++ [x]

/-- Go's `int(float64(n) / d)`: exact truncated division by the rational `d`,
computed on `d`'s numerator and denominator (for `d > 0` this is the floor of
`n / d`). -/
def intFloorDiv (n : Nat) (d : ℚ) : Nat :=
  n * d.den / d.num.toNat

/-- Go's `int(float64(n) / math.Pow(d, k))` (used for a rung's `stepsNeeded`). -/
def intFloorDivPow (n : Nat) (d : ℚ) (k : Nat) : Nat :=
  n * d.den ^ k / d.num.toNat ^ k

/-- Go's `int(math.Pow(d, k))` (used by `initialOperations`). -/
def intPow (d : ℚ) (k : Nat) : Nat :=
  d.num.toNat ^ k / d.den ^ k

/-- Go's `sort.Search` loop body, with explicit fuel (the loop runs at most
`j - i` times, so fuel `n` suffices for `sortSearch n f`): invariant
`i ≤ j`, halving step `h = (i+j)/2`, `f h` moves `j` down to `h`, otherwise
`i` moves up to `h+1`. -/
def sortSearchGo (f : Nat → Bool) : Nat → Nat → Nat → Nat
  | 0, i, _ => i
  | fuel + 1, i, j =>
    if i < j then
      let h := (i + j) / 2
      if f h then sortSearchGo f fuel i h else sortSearchGo f fuel (h + 1) j
    else i

/-- Go's `sort.Search(n, f)`. -/
def sortSearch (n : Nat) (f : Nat → Bool) : Nat :=
  sortSearchGo f n 0 n

/-- `math.MaxFloat64`, the "worst possible" metric value used for early exits:
`(2^53 - 1) * 2^971`. -/
def ashaExitedMetricValue : ℚ :=
  (((2 ^ 53 - 1) * 2 ^ 971 : Nat) : ℚ)

/-- Modify the element at an index of a list (identity out of range). -/
def modifyAt (f : α → α) : Nat → List α → List α
  | _, [] => []
  | 0, a :: as => f a :: as
  | n + 1, a :: as => a :: modifyAt f n as

/-- The `sort.Search` call of `promotionsAsync`: the first index of `l` whose
entry's metric exceeds the new metric (`l.length` when there is none). -/
def insertIndexOf (l : List trialMetric) (metric : ℚ) : Nat :=
  sortSearch l.length (fun i => decide ((l.getD i default).metric > metric))

/-- Insert an element at an index of a list (the `append` + `copy`-shift +
assignment sequence of `promotionsAsync`). -/
def listInsertAt (l : List α) (i : Nat) (x : α) : List α :=
  l.take i ++ x :: l.drop i

/-- `rung.promotionsAsync(requestID, metric, divisor)`: insert the new result in
the sorted metrics list and return the (at most one) trial to promote.  Returns
the updated rung together with the promotion list. -/
def promotionsAsync (r : rung) (requestID : Nat) (metric : ℚ) (divisor : ℚ) :
    rung × List Nat :=
  let oldNumPromote := intFloorDiv r.metrics.length divisor
  let numPromote := intFloorDiv (r.metrics.length + 1) divisor
  let insertIndex := insertIndexOf r.metrics metric
  let promoteNow := insertIndex < numPromote
  let newMetrics :=
    listInsertAt r.metrics insertIndex ⟨requestID, metric, decide promoteNow, false⟩
  if promoteNow then
    ({ r with metrics := newMetrics }, [requestID])
  else if numPromote ≠ oldNumPromote ∧ (newMetrics.getD oldNumPromote default).promoted = false then
    ({ r with metrics := modifyAt (fun t => { t with promoted := true }) oldNumPromote newMetrics },
      [(newMetrics.getD oldNumPromote default).requestID])
  else
    ({ r with metrics := newMetrics }, [])

/-- Apply `f` to rung number `k` of the searcher state. -/
def modifyRungAt (s : asyncHalvingSearch) (k : Nat) (f : rung → rung) : asyncHalvingSearch :=
  { s with rungs := modifyAt f k s.rungs }

/-- The inner loop of `closeOutRungs` over one rung's metrics: for every entry
with `promoted == false && closed == false`, bump `trialsCompleted` (returned as
a count), emit `Close` unless the trial exited early, set `closed = true` — and
then emit a second, unconditional `Close` (exactly as the source does). -/
def closeRungMetrics (earlyExitTrials : List Nat) : List trialMetric →
    List trialMetric × Nat × List Operation
  | [] => ([], 0, [])
  | t :: rest =>
    let tail := closeRungMetrics earlyExitTrials rest
    if t.promoted = false ∧ t.closed = false then
      ({ t with closed := true } :: tail.1, tail.2.1 + 1,
        ((if earlyExitTrials.contains t.requestID then [] else [Operation.close t.requestID]) ++
          [Operation.close t.requestID]) ++ tail.2.2)
    else
      (t :: tail.1, tail.2.1, tail.2.2)

/-- The rung walk of `closeOutRungs`: process rungs bottom-up, stopping at the
first rung with `outstandingTrials > 0`. -/
def closeRungsGo (earlyExitTrials : List Nat) : List rung →
    List rung × Nat × List Operation
  | [] => ([], 0, [])
  | r :: rest =>
    if r.outstandingTrials > 0 then (r :: rest, 0, [])
    else
      let m := closeRungMetrics earlyExitTrials r.metrics
      let tail := closeRungsGo earlyExitTrials rest
      ({ r with metrics := m.1 } :: tail.1, m.2.1 + tail.2.1, m.2.2 ++ tail.2.2)

/-- `closeOutRungs`: close all remaining unpromoted trials in rungs with no
outstanding trials. -/
def closeOutRungs (s : asyncHalvingSearch) : asyncHalvingSearch × List Operation :=
  let t := closeRungsGo s.earlyExitTrials s.rungs
  ({ s with rungs := t.1, trialsCompleted := s.trialsCompleted + t.2.1 }, t.2.2)

/-- The tail of `promote` after the promotion loop: spawn a replacement trial
when no training workload was produced and the trial cap is not reached, and
close out rungs once `maxTrials` is reached (both conditions read the length of
`trialRungs` before the spawn, as the source does). -/
def promoteTail (s : asyncHalvingSearch) (ctx : Nat) (ops : List Operation)
    (addedTrainWorkload : Bool) : asyncHalvingSearch × Nat × List Operation :=
  let allTrials := s.trialRungs.length
  let t :=
    if addedTrainWorkload = false ∧ allTrials < s.maxTrials then
      let s1 := { modifyRungAt s 0 (fun r => { r with outstandingTrials := r.outstandingTrials + 1 }) with
                  trialRungs := mapInsert s.trialRungs ctx 0 }
      (s1, ctx + 1,
        ops ++ Operation.create ctx :: trainAndValidate ctx 0 (s.rungs.getD 0 default).stepsNeeded)
    else (s, ctx, ops)
  if allTrials = s.maxTrials then
    let c := closeOutRungs t.1
    (c.1, t.2.1, t.2.2 ++ c.2)
  else t

/-- The promotion loop of `promote` over the list returned by
`promotionsAsync`: register each promoted trial at the next rung, emit its next
train/validate pair unless it exited early, and for an early-exited trial
return the recursive `promote` call (at the worst metric value) directly,
exactly as the source's `return s.promote(...)` does. -/
def promoteLoop
    (recur : asyncHalvingSearch → Nat → Nat → ℚ → asyncHalvingSearch × Nat × List Operation)
    (rungIndex : Nat) :
    asyncHalvingSearch → Nat → List Nat → List Operation → Bool →
      asyncHalvingSearch × Nat × List Operation
  | s, ctx, [], ops, added => promoteTail s ctx ops added
  | s, ctx, promotionID :: rest, ops, _added =>
    let s1 := { s with trialRungs := mapInsert s.trialRungs promotionID (rungIndex + 1) }
    let s2 := modifyRungAt s1 (rungIndex + 1)
      (fun r => { r with outstandingTrials := r.outstandingTrials + 1 })
    if s2.earlyExitTrials.contains promotionID then
      recur s2 ctx promotionID ashaExitedMetricValue
    else
      promoteLoop recur rungIndex s2 ctx rest
        (ops ++ trainAndValidate promotionID (s2.rungs.getD rungIndex default).stepsNeeded
          (s2.rungs.getD (rungIndex + 1) default).stepsNeeded)
        true

/-- `promote(requestID, metric)` with explicit fuel: look up the trial's rung,
decrement its outstanding count, close at the top rung (unless early-exited),
otherwise insert into the rung and promote, then run the common tail. -/
def promoteAux : Nat → asyncHalvingSearch → Nat → Nat → ℚ →
    asyncHalvingSearch × Nat × List Operation
  | 0, s, ctx, _, _ => (s, ctx, [])
  | fuel + 1, s, ctx, requestID, metric =>
    let rungIndex := mapGetD s.trialRungs requestID 0
    let s1 := modifyRungAt s rungIndex
      (fun r => { r with outstandingTrials := r.outstandingTrials - 1 })
    if rungIndex = s1.config.numRungs - 1 then
      let s2 := { s1 with trialsCompleted := s1.trialsCompleted + 1 }
      let ops := if s2.earlyExitTrials.contains requestID then [] else [Operation.close requestID]
      promoteTail s2 ctx ops false
    else
      let pr := promotionsAsync (s1.rungs.getD rungIndex default) requestID metric s1.config.divisor
      let s2 := { s1 with rungs := s1.rungs.set rungIndex pr.1 }
      promoteLoop (fun s' ctx' rid' m' => promoteAux fuel s' ctx' rid' m') rungIndex
        s2 ctx pr.2 [] false

/-- `promote` as called by the public operations (`numRungs` fuel is enough:
each recursive call moves one rung up and the chain stops at the top rung). -/
def promote (s : asyncHalvingSearch) (ctx : Nat) (requestID : Nat) (metric : ℚ) :
    asyncHalvingSearch × Nat × List Operation :=
  promoteAux s.config.numRungs s ctx requestID metric

/-- `newAsyncHalvingSearch(config)`: build `numRungs` rungs with
`stepsNeeded = max(int(targetTrialSteps / divisor^(numRungs-id-1)), 1)`. -/
def newAsyncHalvingSearch (config : AsyncHalvingConfig) : asyncHalvingSearch :=
  { config := config
    rungs := (List.range config.numRungs).map fun id =>
      { stepsNeeded :=
          max (intFloorDivPow config.targetTrialSteps config.divisor (config.numRungs - id - 1)) 1
        outstandingTrials := 0
        metrics := [] }
    trialRungs := []
    earlyExitTrials := []
    maxTrials := config.maxTrials
    trialsCompleted := 0 }

/-- The create loop of `initialOperations`: each iteration emits a `Create`
(fresh id from the counter) followed by the bottom-rung train/validate pair,
bumps rung 0's outstanding count and registers the trial at rung 0. -/
def initLoop (steps : Nat) : asyncHalvingSearch → Nat → Nat →
    asyncHalvingSearch × Nat × List Operation
  | s, ctx, 0 => (s, ctx, [])
  | s, ctx, n + 1 =>
    let s1 := { modifyRungAt s 0 (fun r => { r with outstandingTrials := r.outstandingTrials + 1 }) with
                trialRungs := mapInsert s.trialRungs ctx 0 }
    let t := initLoop steps s1 (ctx + 1) n
    (t.1, t.2.1, (Operation.create ctx :: trainAndValidate ctx 0 steps) ++ t.2.2)

/-- `initialOperations`: choose the initial concurrency and create that many
trials at rung 0. -/
def initialOperations (s : asyncHalvingSearch) (ctx : Nat) :
    asyncHalvingSearch × Nat × List Operation :=
  let maxConcurrentTrials :=
    if 0 < s.config.maxConcurrentTrials then
      min s.config.maxConcurrentTrials s.config.maxTrials
    else
      max (min (intPow s.config.divisor (s.config.numRungs - 1)) s.config.maxTrials) 1
  initLoop (s.rungs.getD 0 default).stepsNeeded s ctx maxConcurrentTrials

/-- `trainCompleted`: the train-completed handler returns no operations and
does not touch the state (the source body is `return nil, nil`). -/
def trainCompleted (s : asyncHalvingSearch) (ctx : Nat) (_requestID : Nat) :
    asyncHalvingSearch × Nat × List Operation :=
  (s, ctx, [])

/-- Error kinds surfaced by the searcher. -/
inductive searcherError where
  | missingMetric
deriving DecidableEq, Repr

/-- Modelled from the spec: `ValidationMetrics.Metric(name)` (not in `src/`)
extracts the scalar at key `name`, failing with `MissingMetric` when absent. -/
def metricsGet (metrics : List (String × ℚ)) (name : String) : Except searcherError ℚ :=
  match metrics.find? (fun p => p.1 == name) with
  | some p => Except.ok p.2
  | none => Except.error searcherError.missingMetric

/-- `validationCompleted`: extract the configured metric (failing with
`MissingMetric`, in which case no operations are returned and the state is
untouched), normalize to smaller-is-better, and dispatch to `promote`. -/
def validationCompleted (s : asyncHalvingSearch) (ctx : Nat) (requestID : Nat)
    (metrics : List (String × ℚ)) :
    (asyncHalvingSearch × Nat × List Operation) × Option searcherError :=
  match metricsGet metrics s.config.metric with
  | Except.error e => ((s, ctx, []), some e)
  | Except.ok raw =>
    let metric := if s.config.smallerIsBetter then raw else -raw
    (promote s ctx requestID metric, none)

/-- `trialExitedEarly`: record the trial in `earlyExitTrials` and promote it
with the worst possible metric value. -/
def trialExitedEarly (s : asyncHalvingSearch) (ctx : Nat) (requestID : Nat) :
    asyncHalvingSearch × Nat × List Operation :=
  let s1 := { s with earlyExitTrials := insertUnique s.earlyExitTrials requestID }
  promote s1 ctx requestID ashaExitedMetricValue

/-- An externally delivered event (spec section 6). -/
inductive Event where
  | validation (requestID : Nat) (metrics : List (String × ℚ))
  | exitedEarly (requestID : Nat)
deriving DecidableEq, Repr

/-- The trial an event refers to. -/
def Event.requestID : Event → Nat
  | .validation rid _ => rid
  | .exitedEarly rid => rid

/-- One public call (a `MissingMetric` validation leaves the state unchanged and
returns no operations). -/
def step (s : asyncHalvingSearch) (ctx : Nat) : Event →
    asyncHalvingSearch × Nat × List Operation
  | .validation rid ms => (validationCompleted s ctx rid ms).1
  | .exitedEarly rid => trialExitedEarly s ctx rid

/-- Run a list of events, concatenating the operation batches. -/
def runEvents : asyncHalvingSearch → Nat → List Event →
    asyncHalvingSearch × Nat × List Operation
  | s, ctx, [] => (s, ctx, [])
  | s, ctx, e :: es =>
    let t := step s ctx e
    let t2 := runEvents t.1 t.2.1 es
    (t2.1, t2.2.1, t.2.2 ++ t2.2.2)

/-- A full run: construction, `initialOperations`, then the event stream. -/
def runASHA (config : AsyncHalvingConfig) (events : List Event) :
    asyncHalvingSearch × Nat × List Operation :=
  let t0 := initialOperations (newAsyncHalvingSearch config) 0
  let t1 := runEvents t0.1 t0.2.1 events
  (t1.1, t1.2.1, t0.2.2 ++ t1.2.2)

/-- A stream of events is valid when every event refers to a trial the searcher
has registered (the orchestrator only reports on trials it was told to run). -/
def validEvents : asyncHalvingSearch → Nat → List Event → Bool
  | _, _, [] => true
  | s, ctx, e :: es =>
    mapContains s.trialRungs e.requestID &&
      (let t := step s ctx e
       validEvents t.1 t.2.1 es)

/-- Number of occurrences of one exact operation in a batch. -/
def countOp (ops : List Operation) (op : Operation) : Nat :=
  ops.countP (fun o => o == op)

/-- Number of `Train` operations for a given trial in a batch. -/
def countTrainFor (ops : List Operation) (requestID : Nat) : Nat :=
  ops.countP (fun o => match o with
    | Operation.train rid _ _ => rid == requestID
    | _ => false)

/-- Number of `Create` operations in a batch. -/
def countCreate (ops : List Operation) : Nat :=
  ops.countP (fun o => match o with
    | Operation.create _ => true
    | _ => false)

/-- A rung's metrics are sorted non-decreasingly by metric value. -/
def rungSorted (r : rung) : Prop :=
  r.metrics.Pairwise (fun a b => a.metric ≤ b.metric)

/-- The `int(len(metrics)/divisor)` best entries of a rung all carry
`promoted = true`. -/
def promotedLB (d : ℚ) (r : rung) : Prop :=
  ∀ j, j < intFloorDiv r.metrics.length d → (r.metrics.getD j default).promoted = true

/-- State invariant backing the "sorted rung" and promotion-count claims: the
divisor is at least 2 (the configuration schema requires it) and every rung is
sorted with its top `int(len/divisor)` entries promoted. -/
structure SInv (s : asyncHalvingSearch) : Prop where
  hd : (2 : ℚ) ≤ s.config.divisor
  sorted : ∀ r ∈ s.rungs, rungSorted r
  lb : ∀ r ∈ s.rungs, promotedLB s.config.divisor r

/-- State invariant backing the trial-cap claim, relative to the configured
cap `mt`: the cap copy is `mt`, the registry respects the cap, and every
metrics entry belongs to a registered trial. -/
structure KInv (mt : Nat) (s : asyncHalvingSearch) : Prop where
  mteq : s.maxTrials = mt
  cap : s.trialRungs.length ≤ mt
  keys : ∀ r ∈ s.rungs, ∀ t ∈ r.metrics, mapContains s.trialRungs t.requestID = true
  hd2 : (2 : ℚ) ≤ s.config.divisor

/-- A rung records an entry for trial `rid` with metric value `v`. -/
def rungHasEntry (r : rung) (rid : Nat) (v : ℚ) : Prop :=
  ∃ e ∈ r.metrics, e.requestID = rid ∧ e.metric = v

/-- A two-rung bracket (divisor 4, five initial trials) used as a concrete
test fixture. -/
def cfgA : AsyncHalvingConfig :=
  { metric := "loss", smallerIsBetter := true, numRungs := 2, targetTrialSteps := 16,
    maxTrials := 100, divisor := 4, maxConcurrentTrials := 5 }

/-- Five rung-0 validations for `cfgA`; the fifth trial reports the best metric
after the promotion window has already grown once. -/
def evsA : List Event :=
  [Event.validation 0 [("loss", 10)], Event.validation 1 [("loss", 20)],
   Event.validation 2 [("loss", 30)], Event.validation 3 [("loss", 40)],
   Event.validation 4 [("loss", 5)]]

/-- A bracket that reaches its trial cap immediately (two trials, no
promotions), used to drive `closeOutRungs`. -/
def cfgB : AsyncHalvingConfig :=
  { metric := "loss", smallerIsBetter := true, numRungs := 2, targetTrialSteps := 4,
    maxTrials := 2, divisor := 4, maxConcurrentTrials := 2 }

/-- Two plain validations for `cfgB`: after the second, both rungs have
drained and the bracket closes out its unpromoted trials. -/
def evsB : List Event :=
  [Event.validation 0 [("loss", 1)], Event.validation 1 [("loss", 2)]]

/-- A shallow two-rung bracket with divisor 2 for the early-exit scenarios. -/
def cfgC : AsyncHalvingConfig :=
  { metric := "loss", smallerIsBetter := true, numRungs := 2, targetTrialSteps := 4,
    maxTrials := 10, divisor := 2, maxConcurrentTrials := 2 }

/-- Both initial trials of `cfgC` exit early: the second early exit promotes
the first early-exited trial to the top rung. -/
def evsC : List Event := [Event.exitedEarly 0, Event.exitedEarly 1]

/-- A two-rung bracket whose `targetTrialSteps` is 1, so that every rung's
training length clamps to 1. -/
def cfgD : AsyncHalvingConfig :=
  { metric := "loss", smallerIsBetter := true, numRungs := 2, targetTrialSteps := 1,
    maxTrials := 3, divisor := 2, maxConcurrentTrials := 1 }

end Searcher


namespace Searcher

/-! ### Basic facts about the list/map helpers -/

theorem modifyAt_nil (f : α → α) (n : Nat) : modifyAt f n ([] : List α) = [] := by
  cases n <;> rfl

theorem modifyAt_zero_cons (f : α → α) (a : α) (as : List α) :
    modifyAt f 0 (a :: as) = f a :: as := rfl

theorem modifyAt_succ_cons (f : α → α) (n : Nat) (a : α) (as : List α) :
    modifyAt f (n + 1) (a :: as) = a :: modifyAt f n as := rfl

theorem modifyAt_length (f : α → α) (n : Nat) (l : List α) :
    (modifyAt f n l).length = l.length := by
  induction l generalizing n with
  | nil => simp [modifyAt_nil]
  | cons a as ih =>
    cases n with
    | zero => simp [modifyAt_zero_cons]
    | succ n => simpa [modifyAt_succ_cons] using ih n

theorem getD_modifyAt_ne (f : α → α) (n : Nat) (l : List α) (d : α) (j : Nat) (h : j ≠ n) :
    (modifyAt f n l).getD j d = l.getD j d := by
  induction l generalizing n j with
  | nil => simp [modifyAt_nil]
  | cons a as ih =>
    cases n with
    | zero =>
      cases j with
      | zero => exact absurd rfl h
      | succ j => simp [modifyAt_zero_cons]
    | succ n =>
      cases j with
      | zero => simp [modifyAt_succ_cons]
      | succ j => simpa [modifyAt_succ_cons] using ih n j (by omega)

theorem getD_modifyAt_self (f : α → α) (n : Nat) (l : List α) (d : α) (h : n < l.length) :
    (modifyAt f n l).getD n d = f (l.getD n d) := by
  induction l generalizing n with
  | nil => simp at h
  | cons a as ih =>
    cases n with
    | zero => simp [modifyAt_zero_cons]
    | succ n => simpa [modifyAt_succ_cons] using ih n (by simpa using h)

theorem mem_modifyAt (f : α → α) (n : Nat) (l : List α) (a : α) (h : a ∈ modifyAt f n l) :
    a ∈ l ∨ ∃ b, b ∈ l ∧ a = f b := by
  induction l generalizing n with
  | nil => simp [modifyAt_nil] at h
  | cons x xs ih =>
    cases n with
    | zero =>
      rcases (by simpa [modifyAt_zero_cons] using h : a = f x ∨ a ∈ xs) with h' | h'
      · exact Or.inr ⟨x, by simp, h'⟩
      · exact Or.inl (by simp [h'])
    | succ n =>
      rcases (by simpa [modifyAt_succ_cons] using h : a = x ∨ a ∈ modifyAt f n xs) with h' | h'
      · exact Or.inl (by simp [h'])
      · rcases ih n h' with h'' | ⟨b, hb, hab⟩
        · exact Or.inl (by simp [h''])
        · exact Or.inr ⟨b, by simp [hb], hab⟩

theorem length_mapInsert (m : List (Nat × Nat)) (k v : Nat) :
    (mapInsert m k v).length = if mapContains m k then m.length else m.length + 1 := by
  by_cases h : mapContains m k <;> simp [mapInsert, h]

theorem length_mapInsert_le (m : List (Nat × Nat)) (k v : Nat) :
    (mapInsert m k v).length ≤ m.length + 1 := by
  rw [length_mapInsert]
  split <;> omega

theorem mem_mapInsert (m : List (Nat × Nat)) (k v : Nat) (p : Nat × Nat)
    (h : p ∈ mapInsert m k v) : p ∈ m ∨ p = (k, v) := by
  by_cases hc : mapContains m k
  · simp only [mapInsert, hc, if_pos] at h
    rcases List.mem_map.mp h with ⟨q, hq, hpq⟩
    by_cases hqk : q.1 == k
    · right
      simp only [hqk, if_pos] at hpq
      exact hpq.symm
    · left
      simp only [hqk, if_neg, Bool.false_eq_true, not_false_iff] at hpq
      exact hpq ▸ hq
  · simp only [mapInsert, hc, if_neg, Bool.false_eq_true, not_false_iff] at h
    rcases List.mem_append.mp h with h' | h'
    · exact Or.inl h'
    · exact Or.inr (by simpa using h')

theorem mapContains_iff (m : List (Nat × Nat)) (k : Nat) :
    mapContains m k = true ↔ ∃ p, p ∈ m ∧ p.1 = k := by
  simp [mapContains, List.any_eq_true]

theorem mapContains_mapInsert_of_contains (m : List (Nat × Nat)) (k v j : Nat)
    (h : mapContains m j = true) : mapContains (mapInsert m k v) j = true := by
  rcases (mapContains_iff m j).mp h with ⟨p, hp, hpj⟩
  by_cases hc : mapContains m k
  · refine (mapContains_iff _ j).mpr ?_
    refine ⟨if p.1 == k then (k, v) else p, ?_, ?_⟩
    · simp only [mapInsert, hc, if_pos]
      exact List.mem_map_of_mem _ hp
    · by_cases hpk : (p.1 == k) = true
      · rw [if_pos hpk]
        have hk : p.1 = k := by simpa using hpk
        show k = j
        omega
      · rw [if_neg hpk]
        exact hpj
  · refine (mapContains_iff _ j).mpr ⟨p, ?_, hpj⟩
    simp only [mapInsert, hc, if_neg, Bool.false_eq_true, not_false_iff]
    exact List.mem_append.mpr (Or.inl hp)

theorem mapContains_mapInsert_self (m : List (Nat × Nat)) (k v : Nat) :
    mapContains (mapInsert m k v) k = true := by
  by_cases hc : mapContains m k
  · rcases (mapContains_iff m k).mp hc with ⟨p, hp, hpk⟩
    refine (mapContains_iff _ k).mpr ⟨(k, v), ?_, rfl⟩
    simp only [mapInsert, hc, if_pos]
    have hmem := List.mem_map_of_mem (fun q : Nat × Nat => if q.1 == k then (k, v) else q) hp
    simpa [hpk] using hmem
  · refine (mapContains_iff _ k).mpr ⟨(k, v), ?_, rfl⟩
    simp only [mapInsert, hc, if_neg, Bool.false_eq_true, not_false_iff]
    exact List.mem_append.mpr (Or.inr (by simp))

theorem mapGetD_of_not_contains (m : List (Nat × Nat)) (k d : Nat)
    (h : mapContains m k = false) : mapGetD m k d = d := by
  have hfind : m.find? (fun p => p.1 == k) = none := by
    rw [List.find?_eq_none]
    intro p hp hk
    have : mapContains m k = true := (mapContains_iff m k).mpr ⟨p, hp, by simpa using hk⟩
    rw [this] at h
    cases h
  simp [mapGetD, hfind]

/-! ### Arithmetic facts about the truncated divisions -/

theorem divisor_num_den (d : ℚ) (hd : (2 : ℚ) ≤ d) : 2 * d.den ≤ d.num.toNat := by
  have h2 := Rat.le_def.mp hd
  simp at h2
  omega

theorem intFloorDiv_mono (d : ℚ) {n m : Nat} (h : n ≤ m) :
    intFloorDiv n d ≤ intFloorDiv m d :=
  Nat.div_le_div_right (Nat.mul_le_mul_right _ h)

theorem intFloorDiv_succ_le (n : Nat) (d : ℚ) (hd : (2 : ℚ) ≤ d) :
    intFloorDiv (n + 1) d ≤ intFloorDiv n d + 1 := by
  have hnd := divisor_num_den d hd
  have hden := d.den_pos
  have hp : 0 < d.num.toNat := by omega
  have h1 : (n + 1) * d.den = n * d.den + d.den := by ring
  calc (n + 1) * d.den / d.num.toNat = (n * d.den + d.den) / d.num.toNat := by rw [h1]
    _ ≤ (n * d.den + d.num.toNat) / d.num.toNat := Nat.div_le_div_right (by omega)
    _ = n * d.den / d.num.toNat + 1 := Nat.add_div_right _ hp

theorem two_mul_intFloorDiv_le (n : Nat) (d : ℚ) (hd : (2 : ℚ) ≤ d) :
    2 * intFloorDiv n d ≤ n := by
  have hnd := divisor_num_den d hd
  have hden := d.den_pos
  have h1 : intFloorDiv n d ≤ n * d.den / (2 * d.den) :=
    Nat.div_le_div_left hnd (by omega)
  have h2 : n * d.den / (2 * d.den) = n / 2 := Nat.mul_div_mul_right n 2 hden
  have h3 : 2 * (n / 2) ≤ n := by omega
  omega

theorem intFloorDiv_le_self (n : Nat) (d : ℚ) (hd : (2 : ℚ) ≤ d) :
    intFloorDiv n d ≤ n := by
  have := two_mul_intFloorDiv_le n d hd
  omega

theorem intFloorDiv_le_succ (n : Nat) (d : ℚ) :
    intFloorDiv n d ≤ intFloorDiv (n + 1) d :=
  intFloorDiv_mono d (by omega)

/-- The code's truncated division is the floor of `n / d` for positive `d`. -/
theorem intFloorDiv_eq_floor (n : Nat) (d : ℚ) (hd : 0 < d) :
    intFloorDiv n d = ⌊(n : ℚ) / d⌋₊ := by
  have hnum : (0 : ℤ) < d.num := Rat.num_pos.mpr hd
  have hcast : ((d.num.toNat : ℕ) : ℚ) = ((d.num : ℤ) : ℚ) := by
    norm_cast
    omega
  have hnum0 : ((d.num : ℤ) : ℚ) ≠ 0 := by
    simpa using show d.num ≠ 0 by omega
  have hrew : (n : ℚ) / d = ((n * d.den : ℕ) : ℚ) / ((d.num.toNat : ℕ) : ℚ) := by
    rw [hcast]
    push_cast
    rw [show (n : ℚ) / d = (n : ℚ) / ((d.num : ℚ) / (d.den : ℚ)) by rw [Rat.num_div_den d],
      div_div_eq_mul_div]
  rw [hrew, Nat.floor_div_nat, Nat.floor_natCast]
  rfl

/-! ### Correctness of the `sort.Search` loop -/

theorem sortSearchGo_spec (f : Nat → Bool) (n : Nat)
    (hup : ∀ a b, a ≤ b → b < n → f a = true → f b = true) :
    ∀ fuel i j, j - i ≤ fuel → i ≤ j → j ≤ n →
      (∀ k, k < i → f k = false) → (∀ k, j ≤ k → k < n → f k = true) →
      (∀ k, k < sortSearchGo f fuel i j → f k = false) ∧
        (∀ k, sortSearchGo f fuel i j ≤ k → k < n → f k = true) ∧
        i ≤ sortSearchGo f fuel i j ∧ sortSearchGo f fuel i j ≤ j := by
  intro fuel
  induction fuel with
  | zero =>
    intro i j hfuel hij hjn hlow hhigh
    have : i = j := by omega
    subst this
    exact ⟨by simpa [sortSearchGo] using hlow,
      by simpa [sortSearchGo] using hhigh, le_refl _, le_refl _⟩
  | succ fuel ih =>
    intro i j hfuel hij hjn hlow hhigh
    by_cases hlt : i < j
    · have hmid_lo : i ≤ (i + j) / 2 := by omega
      have hmid_hi : (i + j) / 2 < j := by omega
      cases hf : f ((i + j) / 2) with
      | true =>
        have hres : sortSearchGo f (fuel + 1) i j = sortSearchGo f fuel i ((i + j) / 2) := by
          simp [sortSearchGo, hlt, hf]
        rw [hres]
        have h := ih i ((i + j) / 2) (by omega) hmid_lo (by omega) hlow
          (fun k hk hkn => hup _ _ hk hkn hf)
        exact ⟨h.1, h.2.1, h.2.2.1, le_trans h.2.2.2 (by omega)⟩
      | false =>
        have hres : sortSearchGo f (fuel + 1) i j = sortSearchGo f fuel ((i + j) / 2 + 1) j := by
          simp [sortSearchGo, hlt, hf]
        rw [hres]
        have hlow' : ∀ k, k < (i + j) / 2 + 1 → f k = false := by
          intro k hk
          by_cases hki : k < i
          · exact hlow k hki
          · cases hfk : f k with
            | true =>
              have : f ((i + j) / 2) = true := hup k ((i + j) / 2) (by omega) (by omega) hfk
              rw [this] at hf
              cases hf
            | false => rfl
        have h := ih ((i + j) / 2 + 1) j (by omega) (by omega) hjn hlow' hhigh
        exact ⟨h.1, h.2.1, le_trans (by omega) h.2.2.1, h.2.2.2⟩
    · have : i = j := by omega
      subst this
      have hres : sortSearchGo f (fuel + 1) i i = i := by
        simp [sortSearchGo, hlt]
      rw [hres]
      exact ⟨hlow, hhigh, le_refl _, le_refl _⟩

theorem sortSearch_spec (f : Nat → Bool) (n : Nat)
    (hup : ∀ a b, a ≤ b → b < n → f a = true → f b = true) :
    (∀ k, k < sortSearch n f → f k = false) ∧
      (∀ k, sortSearch n f ≤ k → k < n → f k = true) ∧ sortSearch n f ≤ n := by
  have h := sortSearchGo_spec f n hup n 0 n (by omega) (by omega) (le_refl _)
    (fun k hk => absurd hk (by omega)) (fun k hk hkn => absurd hkn (by omega))
  exact ⟨h.1, h.2.1, h.2.2.2⟩

end Searcher

namespace Searcher

/-! ### Facts about `listInsertAt` and `insertIndexOf` -/

theorem listInsertAt_nil (i : Nat) (x : α) : listInsertAt ([] : List α) i x = [x] := by
  simp [listInsertAt]

theorem listInsertAt_zero (l : List α) (x : α) : listInsertAt l 0 x = x :: l := by
  simp [listInsertAt]

theorem listInsertAt_succ_cons (a : α) (as : List α) (i : Nat) (x : α) :
    listInsertAt (a :: as) (i + 1) x = a :: listInsertAt as i x := by
  simp [listInsertAt]

theorem length_listInsertAt (l : List α) (i : Nat) (x : α) :
    (listInsertAt l i x).length = l.length + 1 := by
  simp only [listInsertAt, List.length_append, List.length_cons, List.length_take]
  have := List.length_drop i l
  omega

theorem getD_listInsertAt_lt (l : List α) (i : Nat) (x d : α) (j : Nat)
    (hj : j < i) (hi : i ≤ l.length) : (listInsertAt l i x).getD j d = l.getD j d := by
  induction l generalizing i j with
  | nil =>
    have : i = 0 := by simpa using hi
    omega
  | cons a as ih =>
    cases i with
    | zero => omega
    | succ i =>
      rw [listInsertAt_succ_cons]
      cases j with
      | zero => rfl
      | succ j => simpa using ih i j (by omega) (by simpa using hi)

theorem getD_listInsertAt_self (l : List α) (i : Nat) (x d : α) (hi : i ≤ l.length) :
    (listInsertAt l i x).getD i d = x := by
  induction l generalizing i with
  | nil =>
    have : i = 0 := by simpa using hi
    subst this
    rfl
  | cons a as ih =>
    cases i with
    | zero => rfl
    | succ i =>
      rw [listInsertAt_succ_cons]
      simpa using ih i (by simpa using hi)

theorem getD_listInsertAt_gt (l : List α) (i : Nat) (x d : α) (j : Nat)
    (hj : i < j) : (listInsertAt l i x).getD j d = l.getD (j - 1) d := by
  induction l generalizing i j with
  | nil =>
    rw [listInsertAt_nil]
    cases j with
    | zero => omega
    | succ j => simp
  | cons a as ih =>
    cases i with
    | zero =>
      rw [listInsertAt_zero]
      cases j with
      | zero => omega
      | succ j => simp
    | succ i =>
      rw [listInsertAt_succ_cons]
      cases j with
      | zero => omega
      | succ j =>
        have := ih i j (by omega)
        cases j with
        | zero => omega
        | succ j => simpa using this

theorem mem_listInsertAt (l : List α) (i : Nat) (x a : α) :
    a ∈ listInsertAt l i x ↔ a ∈ l ∨ a = x := by
  simp only [listInsertAt, List.mem_append, List.mem_cons]
  constructor
  · rintro (h | h | h)
    · exact Or.inl (List.mem_of_mem_take h)
    · exact Or.inr h
    · exact Or.inl (List.mem_of_mem_drop h)
  · rintro (h | h)
    · have h' : a ∈ l.take i ++ l.drop i := by
        rw [List.take_append_drop i l]
        exact h
      rcases List.mem_append.mp h' with h'' | h''
      · exact Or.inl h''
      · exact Or.inr (Or.inr h'')
    · exact Or.inr (Or.inl h)

theorem mem_take_getD (l : List α) (i : Nat) (d a : α) (h : a ∈ l.take i) :
    ∃ j, j < i ∧ j < l.length ∧ l.getD j d = a := by
  rcases List.mem_iff_getElem.mp h with ⟨j, hj, hget⟩
  have hj' : j < i ∧ j < l.length := by
    have := List.length_take i l
    omega
  refine ⟨j, hj'.1, hj'.2, ?_⟩
  rw [List.getD_eq_getElem l d hj'.2, ← List.getElem_take l]
  · exact hget

theorem mem_drop_getD (l : List α) (i : Nat) (d a : α) (h : a ∈ l.drop i) :
    ∃ j, i ≤ j ∧ j < l.length ∧ l.getD j d = a := by
  rcases List.mem_iff_getElem.mp h with ⟨j, hj, hget⟩
  have hj' : i + j < l.length := by
    have := List.length_drop i l
    omega
  refine ⟨i + j, by omega, hj', ?_⟩
  rw [List.getD_eq_getElem l d hj', ← List.getElem_drop l]
  exact hget

theorem pairwise_listInsertAt (R : α → α → Prop) (l : List α) (i : Nat) (x : α)
    (hl : l.Pairwise R)
    (h1 : ∀ a ∈ l.take i, R a x) (h2 : ∀ a ∈ l.drop i, R x a) :
    (listInsertAt l i x).Pairwise R := by
  have hl' : (l.take i ++ l.drop i).Pairwise R := by
    rw [List.take_append_drop i l]
    exact hl
  have hsplit := List.pairwise_append.mp hl'
  refine List.pairwise_append.mpr ⟨hsplit.1, ?_, ?_⟩
  · exact List.pairwise_cons.mpr ⟨h2, hsplit.2.1⟩
  · intro a ha b hb
    rcases List.mem_cons.mp hb with rfl | hb'
    · exact h1 a ha
    · exact hsplit.2.2 a ha b hb'

theorem pairwise_modifyAt (R : α → α → Prop) (f : α → α) (n : Nat) (l : List α)
    (hf1 : ∀ a b, R a b → R (f a) b) (hf2 : ∀ a b, R a b → R a (f b))
    (hl : l.Pairwise R) : (modifyAt f n l).Pairwise R := by
  induction l generalizing n with
  | nil => simp [modifyAt_nil]
  | cons a as ih =>
    rcases List.pairwise_cons.mp hl with ⟨hr, htail⟩
    cases n with
    | zero =>
      rw [modifyAt_zero_cons]
      exact List.pairwise_cons.mpr ⟨fun b hb => hf1 _ _ (hr b hb), htail⟩
    | succ n =>
      rw [modifyAt_succ_cons]
      refine List.pairwise_cons.mpr ⟨?_, ih n htail⟩
      intro b hb
      rcases mem_modifyAt f n as b hb with hb' | ⟨c, hc, rfl⟩
      · exact hr b hb'
      · exact hf2 _ _ (hr c hc)

theorem mem_modifyAt_of_mem (f : α → α) (n : Nat) (l : List α) (a : α) (h : a ∈ l) :
    a ∈ modifyAt f n l ∨ f a ∈ modifyAt f n l := by
  induction l generalizing n with
  | nil => simp at h
  | cons x xs ih =>
    cases n with
    | zero =>
      rcases List.mem_cons.mp h with rfl | h'
      · right
        rw [modifyAt_zero_cons]
        exact List.mem_cons.mpr (Or.inl rfl)
      · left
        rw [modifyAt_zero_cons]
        exact List.mem_cons.mpr (Or.inr h')
    | succ n =>
      rcases List.mem_cons.mp h with rfl | h'
      · left
        rw [modifyAt_succ_cons]
        exact List.mem_cons.mpr (Or.inl rfl)
      · rcases ih n h' with h'' | h''
        · left
          rw [modifyAt_succ_cons]
          exact List.mem_cons.mpr (Or.inr h'')
        · right
          rw [modifyAt_succ_cons]
          exact List.mem_cons.mpr (Or.inr h'')

theorem sortSearchGo_le (f : Nat → Bool) :
    ∀ fuel i j, i ≤ j → i ≤ sortSearchGo f fuel i j ∧ sortSearchGo f fuel i j ≤ j := by
  intro fuel
  induction fuel with
  | zero =>
    intro i j hij
    exact ⟨le_refl _, hij⟩
  | succ fuel ih =>
    intro i j hij
    by_cases hlt : i < j
    · cases hf : f ((i + j) / 2) with
      | true =>
        have hres : sortSearchGo f (fuel + 1) i j = sortSearchGo f fuel i ((i + j) / 2) := by
          simp [sortSearchGo, hlt, hf]
        rw [hres]
        have h := ih i ((i + j) / 2) (by omega)
        exact ⟨h.1, by omega⟩
      | false =>
        have hres : sortSearchGo f (fuel + 1) i j = sortSearchGo f fuel ((i + j) / 2 + 1) j := by
          simp [sortSearchGo, hlt, hf]
        rw [hres]
        have h := ih ((i + j) / 2 + 1) j (by omega)
        exact ⟨by omega, h.2⟩
    · have hres : sortSearchGo f (fuel + 1) i j = i := by
        simp [sortSearchGo, hlt]
      rw [hres]
      exact ⟨le_refl _, hij⟩

theorem insertIndexOf_le (l : List trialMetric) (m : ℚ) : insertIndexOf l m ≤ l.length :=
  (sortSearchGo_le _ l.length 0 l.length (by omega)).2

/-- On a sorted metrics list, the insertion index is the unique position whose
earlier entries are at most the new metric and whose later entries strictly
exceed it (so ties are broken after existing equal entries). -/
theorem insertIndexOf_spec (l : List trialMetric) (m : ℚ)
    (hs : l.Pairwise (fun a b => a.metric ≤ b.metric)) :
    (∀ k, k < insertIndexOf l m → (l.getD k default).metric ≤ m) ∧
      (∀ k, insertIndexOf l m ≤ k → k < l.length → m < (l.getD k default).metric) := by
  have hup : ∀ a b, a ≤ b → b < l.length →
      decide ((l.getD a default).metric > m) = true →
      decide ((l.getD b default).metric > m) = true := by
    intro a b hab hb hda
    have hda' : m < (l.getD a default).metric := by simpa using hda
    have hle : (l.getD a default).metric ≤ (l.getD b default).metric := by
      rcases eq_or_lt_of_le hab with rfl | hlt
      · exact le_refl _
      · have hp := List.pairwise_iff_getElem.mp hs a b (by omega) hb hlt
        rw [List.getD_eq_getElem l default (by omega), List.getD_eq_getElem l default hb]
        exact hp
    simpa using lt_of_lt_of_le hda' hle
  have h := sortSearch_spec _ _ hup
  constructor
  · intro k hk
    have hk' := h.1 k hk
    have : ¬ m < (l.getD k default).metric := by simpa using hk'
    exact not_lt.mp this
  · intro k hk hkl
    simpa using h.2.1 k hk hkl

end Searcher

namespace Searcher

/-! ### Invariants of a single rung and their preservation by `promotionsAsync` -/

theorem promotionsAsync_metrics_length (r : rung) (rid : Nat) (m d : ℚ) :
    (promotionsAsync r rid m d).1.metrics.length = r.metrics.length + 1 := by
  simp only [promotionsAsync]
  split_ifs <;> simp [length_listInsertAt, modifyAt_length]

theorem promotionsAsync_sorted (r : rung) (rid : Nat) (m d : ℚ) (hs : rungSorted r) :
    rungSorted (promotionsAsync r rid m d).1 := by
  have hspec := insertIndexOf_spec r.metrics m hs
  have hins : ∀ pn : Bool,
      (listInsertAt r.metrics (insertIndexOf r.metrics m)
        ⟨rid, m, pn, false⟩).Pairwise (fun a b => a.metric ≤ b.metric) := by
    intro pn
    refine pairwise_listInsertAt _ _ _ _ hs ?_ ?_
    · intro a ha
      rcases mem_take_getD r.metrics _ default a ha with ⟨j, hj1, _hj2, rfl⟩
      exact hspec.1 j hj1
    · intro a ha
      rcases mem_drop_getD r.metrics _ default a ha with ⟨j, hj1, hj2, rfl⟩
      exact le_of_lt (hspec.2 j hj1 hj2)
  simp only [promotionsAsync, rungSorted]
  split_ifs
  · exact hins _
  · exact pairwise_modifyAt _ _ _ _ (fun a b hab => hab) (fun a b hab => hab) (hins _)
  · exact hins _


theorem lb_insert_inside (l : List trialMetric) (d : ℚ) (hd : (2 : ℚ) ≤ d) (i : Nat)
    (x : trialMetric) (hx : x.promoted = true) (hi : i ≤ l.length)
    (hwin : i < intFloorDiv (l.length + 1) d)
    (hp : ∀ j, j < intFloorDiv l.length d → (l.getD j default).promoted = true)
    (j : Nat) (hj : j < intFloorDiv (l.length + 1) d) :
    ((listInsertAt l i x).getD j default).promoted = true := by
  have hsucc := intFloorDiv_succ_le l.length d hd
  rcases lt_trichotomy j i with hji | rfl | hij
  · rw [getD_listInsertAt_lt _ _ _ _ _ hji hi]
    exact hp j (by omega)
  · rw [getD_listInsertAt_self _ _ _ _ hi]
    exact hx
  · rw [getD_listInsertAt_gt _ _ _ _ _ hij]
    exact hp (j - 1) (by omega)

theorem lb_insert_grow_set (l : List trialMetric) (d : ℚ) (hd : (2 : ℚ) ≤ d) (i : Nat)
    (x : trialMetric) (hi : i ≤ l.length)
    (hwin : ¬ i < intFloorDiv (l.length + 1) d)
    (_hgrow : intFloorDiv (l.length + 1) d ≠ intFloorDiv l.length d)
    (hp : ∀ j, j < intFloorDiv l.length d → (l.getD j default).promoted = true)
    (j : Nat) (hj : j < intFloorDiv (l.length + 1) d) :
    ((modifyAt (fun t => { t with promoted := true }) (intFloorDiv l.length d)
        (listInsertAt l i x)).getD j default).promoted = true := by
  have hsucc := intFloorDiv_succ_le l.length d hd
  have hmono := intFloorDiv_le_succ l.length d
  have holdle := intFloorDiv_le_self l.length d hd
  by_cases hje : j = intFloorDiv l.length d
  · subst hje
    rw [getD_modifyAt_self]
    rw [length_listInsertAt]
    omega
  · rw [getD_modifyAt_ne _ _ _ _ _ hje]
    have hji : j < i := by omega
    rw [getD_listInsertAt_lt _ _ _ _ _ hji hi]
    exact hp j (by omega)

theorem lb_insert_grow_already (l : List trialMetric) (d : ℚ) (hd : (2 : ℚ) ≤ d) (i : Nat)
    (x : trialMetric) (hi : i ≤ l.length)
    (hwin : ¬ i < intFloorDiv (l.length + 1) d)
    (hflag : ((listInsertAt l i x).getD (intFloorDiv l.length d) default).promoted = true)
    (hp : ∀ j, j < intFloorDiv l.length d → (l.getD j default).promoted = true)
    (j : Nat) (hj : j < intFloorDiv (l.length + 1) d) :
    ((listInsertAt l i x).getD j default).promoted = true := by
  have hsucc := intFloorDiv_succ_le l.length d hd
  by_cases hje : j = intFloorDiv l.length d
  · subst hje
    exact hflag
  · have hji : j < i := by omega
    rw [getD_listInsertAt_lt _ _ _ _ _ hji hi]
    exact hp j (by omega)

theorem lb_insert_nogrow (l : List trialMetric) (d : ℚ) (i : Nat)
    (x : trialMetric) (hi : i ≤ l.length)
    (hwin : ¬ i < intFloorDiv (l.length + 1) d)
    (hng : intFloorDiv (l.length + 1) d = intFloorDiv l.length d)
    (hp : ∀ j, j < intFloorDiv l.length d → (l.getD j default).promoted = true)
    (j : Nat) (hj : j < intFloorDiv (l.length + 1) d) :
    ((listInsertAt l i x).getD j default).promoted = true := by
  have hji : j < i := by omega
  rw [getD_listInsertAt_lt _ _ _ _ _ hji hi]
  exact hp j (by omega)

theorem promotionsAsync_promotedLB (r : rung) (rid : Nat) (m d : ℚ)
    (hd : (2 : ℚ) ≤ d) (hp : promotedLB d r) :
    promotedLB d (promotionsAsync r rid m d).1 := by
  intro j hj
  rw [promotionsAsync_metrics_length] at hj
  have hile := insertIndexOf_le r.metrics m
  simp only [promotionsAsync]
  split_ifs with h1 h2
  · exact lb_insert_inside r.metrics d hd _ _ (by simp [h1]) hile h1 hp j hj
  · exact lb_insert_grow_set r.metrics d hd _ _ hile h1 h2.1 hp j hj
  · rcases Decidable.not_and_iff_or_not.mp h2 with hng | hflag
    · exact lb_insert_nogrow r.metrics d _ _ hile h1 (by omega) hp j hj
    · exact lb_insert_grow_already r.metrics d hd _ _ hile h1
        (by simpa using hflag) hp j hj

end Searcher

namespace Searcher

theorem promotionsAsync_metrics_ids (r : rung) (rid : Nat) (m d : ℚ) (t : trialMetric)
    (ht : t ∈ (promotionsAsync r rid m d).1.metrics) :
    t.requestID = rid ∨ ∃ t', t' ∈ r.metrics ∧ t.requestID = t'.requestID := by
  have hbase : ∀ pn : Bool, ∀ t' : trialMetric,
      t' ∈ listInsertAt r.metrics (insertIndexOf r.metrics m) ⟨rid, m, pn, false⟩ →
      t'.requestID = rid ∨ ∃ t'', t'' ∈ r.metrics ∧ t'.requestID = t''.requestID := by
    intro pn t' ht'
    rcases (mem_listInsertAt _ _ _ _).mp ht' with h | rfl
    · exact Or.inr ⟨t', h, rfl⟩
    · exact Or.inl rfl
  revert ht
  simp only [promotionsAsync]
  split_ifs with h1 h2
  · exact hbase _ t
  · intro ht
    rcases mem_modifyAt _ _ _ _ ht with h | ⟨b, hb, rfl⟩
    · exact hbase _ t h
    · exact hbase _ b hb
  · exact hbase _ t

theorem promotionsAsync_promos_mem (r : rung) (rid : Nat) (m d : ℚ)
    (hd : (2 : ℚ) ≤ d) (p : Nat) (hp : p ∈ (promotionsAsync r rid m d).2) :
    p = rid ∨ ∃ t, t ∈ r.metrics ∧ p = t.requestID := by
  have hile := insertIndexOf_le r.metrics m
  have hsucc := intFloorDiv_succ_le r.metrics.length d hd
  have hhalf := two_mul_intFloorDiv_le (r.metrics.length + 1) d hd
  have hmono := intFloorDiv_le_succ r.metrics.length d
  revert hp
  simp only [promotionsAsync]
  split_ifs with h1 h2
  · intro hp
    rcases List.mem_cons.mp hp with rfl | h
    · exact Or.inl rfl
    · simp at h
  · intro hp
    rcases List.mem_cons.mp hp with rfl | h
    · have hgrow : intFloorDiv (r.metrics.length + 1) d = intFloorDiv r.metrics.length d + 1 := by
        omega
      have holdlt : intFloorDiv r.metrics.length d < insertIndexOf r.metrics m := by omega
      have holdlen : intFloorDiv r.metrics.length d < r.metrics.length := by omega
      rw [getD_listInsertAt_lt _ _ _ _ _ holdlt hile]
      refine Or.inr ⟨r.metrics.getD (intFloorDiv r.metrics.length d) default, ?_, rfl⟩
      rw [List.getD_eq_getElem r.metrics default holdlen]
      exact List.getElem_mem holdlen
    · simp at h
  · intro hp
    simp at hp

theorem promotionsAsync_promos_len (r : rung) (rid : Nat) (m d : ℚ) :
    (promotionsAsync r rid m d).2.length ≤ 1 := by
  simp only [promotionsAsync]
  split_ifs <;> simp

theorem promotionsAsync_entry_mem (r : rung) (rid : Nat) (m d : ℚ) (t : trialMetric)
    (ht : t ∈ r.metrics) :
    ∃ t', t' ∈ (promotionsAsync r rid m d).1.metrics ∧
      t'.requestID = t.requestID ∧ t'.metric = t.metric := by
  have hbase : ∀ pn : Bool,
      t ∈ listInsertAt r.metrics (insertIndexOf r.metrics m) ⟨rid, m, pn, false⟩ :=
    fun pn => (mem_listInsertAt _ _ _ _).mpr (Or.inl ht)
  simp only [promotionsAsync]
  split_ifs with h1 h2
  · exact ⟨t, hbase _, rfl, rfl⟩
  · rcases mem_modifyAt_of_mem (fun u => { u with promoted := true }) _ _ t (hbase _) with h | h
    · exact ⟨t, h, rfl, rfl⟩
    · exact ⟨{ t with promoted := true }, h, rfl, rfl⟩
  · exact ⟨t, hbase _, rfl, rfl⟩

theorem promotionsAsync_new_entry (r : rung) (rid : Nat) (m d : ℚ) :
    ∃ t', t' ∈ (promotionsAsync r rid m d).1.metrics ∧ t'.requestID = rid ∧ t'.metric = m := by
  have hbase : ∀ pn : Bool,
      (⟨rid, m, pn, false⟩ : trialMetric) ∈
        listInsertAt r.metrics (insertIndexOf r.metrics m) ⟨rid, m, pn, false⟩ :=
    fun pn => (mem_listInsertAt _ _ _ _).mpr (Or.inr rfl)
  simp only [promotionsAsync]
  split_ifs with h1 h2
  · exact ⟨_, hbase _, rfl, rfl⟩
  · rcases mem_modifyAt_of_mem (fun u => { u with promoted := true }) _ _ _ (hbase _) with h | h
    · exact ⟨_, h, rfl, rfl⟩
    · exact ⟨_, h, rfl, rfl⟩
  · exact ⟨_, hbase _, rfl, rfl⟩

end Searcher

namespace Searcher

/-! ### The searcher-state rung invariant and its preservation -/

theorem rungsProp_modifyAt (P : rung → Prop) (f : rung → rung)
    (hf : ∀ r, P r → P (f r)) (k : Nat) (rs : List rung)
    (h : ∀ r ∈ rs, P r) : ∀ r' ∈ modifyAt f k rs, P r' := by
  intro r hr
  rcases mem_modifyAt f k rs r hr with h' | ⟨b, hb, rfl⟩
  · exact h r h'
  · exact hf b (h b hb)

theorem rungsProp_set (P : rung → Prop) (k : Nat) (x : rung) (rs : List rung)
    (hx : P x) (h : ∀ r ∈ rs, P r) : ∀ r' ∈ rs.set k x, P r' := by
  intro r hr
  rcases List.mem_or_eq_of_mem_set hr with h' | rfl
  · exact h r h'
  · exact hx

theorem closeRungMetrics_length (ee : List Nat) (l : List trialMetric) :
    (closeRungMetrics ee l).1.length = l.length := by
  induction l with
  | nil => rfl
  | cons t rest ih =>
    by_cases hc : t.promoted = false ∧ t.closed = false <;>
      simp [closeRungMetrics, hc, ih]

theorem closeRungMetrics_fields (ee : List Nat) (l : List trialMetric) (j : Nat) :
    ((closeRungMetrics ee l).1.getD j default).requestID = (l.getD j default).requestID ∧
      ((closeRungMetrics ee l).1.getD j default).metric = (l.getD j default).metric ∧
      ((closeRungMetrics ee l).1.getD j default).promoted = (l.getD j default).promoted := by
  induction l generalizing j with
  | nil => simp [closeRungMetrics]
  | cons t rest ih =>
    simp only [closeRungMetrics]
    by_cases hc : t.promoted = false ∧ t.closed = false
    · rw [if_pos hc]
      cases j with
      | zero => exact ⟨rfl, rfl, rfl⟩
      | succ j => exact ih j
    · rw [if_neg hc]
      cases j with
      | zero => exact ⟨rfl, rfl, rfl⟩
      | succ j => exact ih j

theorem rungSorted_of_fields (r r' : rung)
    (hlen : r'.metrics.length = r.metrics.length)
    (hf : ∀ j, (r'.metrics.getD j default).metric = (r.metrics.getD j default).metric)
    (hs : rungSorted r) : rungSorted r' := by
  rw [rungSorted, List.pairwise_iff_getElem]
  intro a b ha hb hab
  have hp := List.pairwise_iff_getElem.mp hs a b (by omega) (by omega) hab
  have ea : (r'.metrics.getD a default).metric = (r.metrics.getD a default).metric := hf a
  have eb : (r'.metrics.getD b default).metric = (r.metrics.getD b default).metric := hf b
  rw [List.getD_eq_getElem r'.metrics default ha] at ea
  rw [List.getD_eq_getElem r'.metrics default hb] at eb
  rw [List.getD_eq_getElem r.metrics default (by omega)] at ea
  rw [List.getD_eq_getElem r.metrics default (by omega)] at eb
  rw [ea, eb]
  exact hp

theorem promotedLB_of_fields (d : ℚ) (r r' : rung)
    (hlen : r'.metrics.length = r.metrics.length)
    (hf : ∀ j, (r'.metrics.getD j default).promoted = (r.metrics.getD j default).promoted)
    (hs : promotedLB d r) : promotedLB d r' := by
  intro j hj
  rw [hlen] at hj
  rw [hf j]
  exact hs j hj

theorem closeRungsGo_rungsProp (d : ℚ) (ee : List Nat) (rs : List rung)
    (h : ∀ r ∈ rs, rungSorted r ∧ promotedLB d r) :
    ∀ r' ∈ (closeRungsGo ee rs).1, rungSorted r' ∧ promotedLB d r' := by
  induction rs with
  | nil => simp [closeRungsGo]
  | cons r rest ih =>
    by_cases ho : r.outstandingTrials > 0
    · simpa [closeRungsGo, ho] using h
    · simp only [closeRungsGo, ho, if_neg, not_false_iff]
      intro r' hr'
      rcases List.mem_cons.mp hr' with rfl | hr''
      · have hr := h r (by simp)
        constructor
        · exact rungSorted_of_fields r _ (closeRungMetrics_length ee r.metrics)
            (fun j => (closeRungMetrics_fields ee r.metrics j).2.1) hr.1
        · exact promotedLB_of_fields d r _ (closeRungMetrics_length ee r.metrics)
            (fun j => (closeRungMetrics_fields ee r.metrics j).2.2) hr.2
      · exact ih (fun r hr => h r (by simp [hr])) r' hr''

theorem sinv_closeOutRungs (s : asyncHalvingSearch) (h : SInv s) :
    SInv (closeOutRungs s).1 := by
  refine ⟨h.hd, ?_, ?_⟩
  · intro r hr
    exact (closeRungsGo_rungsProp s.config.divisor s.earlyExitTrials s.rungs
      (fun r hr => ⟨h.sorted r hr, h.lb r hr⟩) r hr).1
  · intro r hr
    exact (closeRungsGo_rungsProp s.config.divisor s.earlyExitTrials s.rungs
      (fun r hr => ⟨h.sorted r hr, h.lb r hr⟩) r hr).2

theorem sinv_modifyRungAt (s : asyncHalvingSearch) (k : Nat) (f : rung → rung)
    (hf : ∀ r, (f r).metrics = r.metrics) (h : SInv s) : SInv (modifyRungAt s k f) := by
  refine ⟨h.hd, ?_, ?_⟩
  · intro r hr
    refine rungsProp_modifyAt rungSorted f ?_ k s.rungs h.sorted r hr
    intro r' hr'
    rw [rungSorted, hf r']
    exact hr'
  · intro r hr
    refine rungsProp_modifyAt (promotedLB s.config.divisor) f ?_ k s.rungs h.lb r hr
    intro r' hr'
    rw [promotedLB, hf r']
    exact hr'

theorem sinv_createState (s : asyncHalvingSearch) (ctx : Nat) (h : SInv s) :
    SInv { modifyRungAt s 0 (fun r => { r with outstandingTrials := r.outstandingTrials + 1 }) with
           trialRungs := mapInsert s.trialRungs ctx 0 } := by
  have h1 := sinv_modifyRungAt s 0
    (fun r => { r with outstandingTrials := r.outstandingTrials + 1 }) (fun r => rfl) h
  exact ⟨h1.hd, h1.sorted, h1.lb⟩

theorem sinv_promoteTail (s : asyncHalvingSearch) (ctx : Nat) (ops : List Operation)
    (added : Bool) (h : SInv s) : SInv (promoteTail s ctx ops added).1 := by
  simp only [promoteTail]
  split_ifs with h1 h2 h3
  · exact sinv_closeOutRungs _ (sinv_createState s ctx h)
  · exact sinv_closeOutRungs _ h
  · exact sinv_createState s ctx h
  · exact h

theorem sinv_getD_rung (s : asyncHalvingSearch) (k : Nat) (h : SInv s) :
    rungSorted (s.rungs.getD k default) ∧
      promotedLB s.config.divisor (s.rungs.getD k default) := by
  by_cases hk : k < s.rungs.length
  · have hm : s.rungs.getD k default ∈ s.rungs := by
      rw [List.getD_eq_getElem s.rungs default hk]
      exact List.getElem_mem hk
    exact ⟨h.sorted _ hm, h.lb _ hm⟩
  · rw [List.getD_eq_default s.rungs default (by omega)]
    constructor
    · exact List.Pairwise.nil
    · intro j hj
      simp [intFloorDiv, show (default : rung).metrics = [] from rfl] at hj

theorem sinv_promoteLoop
    (recur : asyncHalvingSearch → Nat → Nat → ℚ → asyncHalvingSearch × Nat × List Operation)
    (hrec : ∀ s' c' p' m', SInv s' → SInv (recur s' c' p' m').1) (rungIndex : Nat) :
    ∀ promos s ctx ops added, SInv s →
      SInv (promoteLoop recur rungIndex s ctx promos ops added).1 := by
  intro promos
  induction promos with
  | nil =>
    intro s ctx ops added h
    exact sinv_promoteTail _ _ _ _ h
  | cons pid rest ih =>
    intro s ctx ops added h
    simp only [promoteLoop]
    have h1 : SInv { s with trialRungs := mapInsert s.trialRungs pid (rungIndex + 1) } :=
      ⟨h.hd, h.sorted, h.lb⟩
    have h2 := sinv_modifyRungAt _ (rungIndex + 1)
      (fun r => { r with outstandingTrials := r.outstandingTrials + 1 }) (fun r => rfl) h1
    split_ifs
    · exact hrec _ _ _ _ h2
    · exact ih _ _ _ _ h2

theorem sinv_promoteAux (fuel : Nat) :
    ∀ s ctx rid m, SInv s → SInv (promoteAux fuel s ctx rid m).1 := by
  induction fuel with
  | zero =>
    intro s ctx rid m h
    exact h
  | succ fuel ih =>
    intro s ctx rid m h
    simp only [promoteAux]
    have h1 := sinv_modifyRungAt s (mapGetD s.trialRungs rid 0)
      (fun r => { r with outstandingTrials := r.outstandingTrials - 1 }) (fun r => rfl) h
    split_ifs
    · exact sinv_promoteTail _ _ _ _ ⟨h1.hd, h1.sorted, h1.lb⟩
    · exact sinv_promoteTail _ _ _ _ ⟨h1.hd, h1.sorted, h1.lb⟩
    · have hr := sinv_getD_rung _ (mapGetD s.trialRungs rid 0) h1
      refine sinv_promoteLoop _ (fun s' c' p' m' h' => ih s' c' p' m' h') _ _ _ _ _ _ ?_
      refine ⟨h1.hd, ?_, ?_⟩
      · refine rungsProp_set rungSorted _ _ _ ?_ h1.sorted
        exact promotionsAsync_sorted _ rid m _ hr.1
      · refine rungsProp_set (promotedLB _) _ _ _ ?_ h1.lb
        exact promotionsAsync_promotedLB _ rid m _ h1.hd hr.2

theorem sinv_promote (s : asyncHalvingSearch) (ctx rid : Nat) (m : ℚ) (h : SInv s) :
    SInv (promote s ctx rid m).1 :=
  sinv_promoteAux _ _ _ _ _ h

theorem sinv_initLoop (steps : Nat) :
    ∀ n s ctx, SInv s → SInv (initLoop steps s ctx n).1 := by
  intro n
  induction n with
  | zero =>
    intro s ctx h
    exact h
  | succ n ih =>
    intro s ctx h
    simp only [initLoop]
    refine ih _ _ ?_
    have h1 := sinv_modifyRungAt s 0
      (fun r => { r with outstandingTrials := r.outstandingTrials + 1 }) (fun r => rfl) h
    exact ⟨h1.hd, h1.sorted, h1.lb⟩

theorem sinv_initialOperations (s : asyncHalvingSearch) (ctx : Nat) (h : SInv s) :
    SInv (initialOperations s ctx).1 :=
  sinv_initLoop _ _ _ _ h

theorem sinv_step (s : asyncHalvingSearch) (ctx : Nat) (e : Event) (h : SInv s) :
    SInv (step s ctx e).1 := by
  cases e with
  | validation rid ms =>
    simp only [step, validationCompleted]
    cases metricsGet ms s.config.metric with
    | error e => exact h
    | ok raw => exact sinv_promote _ _ _ _ h
  | exitedEarly rid =>
    exact sinv_promote _ _ _ _ ⟨h.hd, h.sorted, h.lb⟩

theorem sinv_runEvents :
    ∀ events s ctx, SInv s → SInv (runEvents s ctx events).1 := by
  intro events
  induction events with
  | nil =>
    intro s ctx h
    exact h
  | cons e es ih =>
    intro s ctx h
    exact ih _ _ (sinv_step s ctx e h)

theorem sinv_new (config : AsyncHalvingConfig) (hd : (2 : ℚ) ≤ config.divisor) :
    SInv (newAsyncHalvingSearch config) := by
  refine ⟨hd, ?_, ?_⟩
  · intro r hr
    rcases List.mem_map.mp hr with ⟨id, _, rfl⟩
    exact List.Pairwise.nil
  · intro r hr
    rcases List.mem_map.mp hr with ⟨id, _, rfl⟩
    intro j hj
    simp [intFloorDiv] at hj

theorem sinv_runASHA (config : AsyncHalvingConfig) (events : List Event)
    (hd : (2 : ℚ) ≤ config.divisor) : SInv (runASHA config events).1 :=
  sinv_runEvents _ _ _ (sinv_initialOperations _ _ (sinv_new config hd))

end Searcher

namespace Searcher

/-! ### Bridging the truncated power divisions to mathematical floors -/

theorem intFloorDivPow_eq_floor (n : Nat) (d : ℚ) (k : Nat) (hd : 0 < d) :
    intFloorDivPow n d k = ⌊(n : ℚ) / d ^ k⌋₊ := by
  have hnum : (0 : ℤ) < d.num := Rat.num_pos.mpr hd
  have h1 : ((d.num.toNat : ℕ) : ℚ) = ((d.num : ℤ) : ℚ) := by
    norm_cast
    omega
  have hcast : ((d.num.toNat ^ k : ℕ) : ℚ) = ((d.num : ℤ) : ℚ) ^ k := by
    push_cast
    rw [h1]
  have hrew : (n : ℚ) / d ^ k = ((n * d.den ^ k : ℕ) : ℚ) / ((d.num.toNat ^ k : ℕ) : ℚ) := by
    rw [hcast]
    push_cast
    rw [show d = (d.num : ℚ) / (d.den : ℚ) from (Rat.num_div_den d).symm, div_pow,
      div_div_eq_mul_div]
    rw [Rat.num_div_den d]
  rw [hrew, Nat.floor_div_nat, Nat.floor_natCast]
  rfl

theorem intFloorDivPow_antitone (n : Nat) (d : ℚ) (hd : (2 : ℚ) ≤ d) (a b : Nat)
    (hab : a ≤ b) : intFloorDivPow n d b ≤ intFloorDivPow n d a := by
  have hnd := divisor_num_den d hd
  have hq := d.den_pos
  obtain ⟨c, rfl⟩ := Nat.exists_eq_add_of_le hab
  calc n * d.den ^ (a + c) / d.num.toNat ^ (a + c)
      = n * d.den ^ a * d.den ^ c / (d.num.toNat ^ a * d.num.toNat ^ c) := by
        rw [pow_add, pow_add, ← mul_assoc]
    _ ≤ n * d.den ^ a * d.num.toNat ^ c / (d.num.toNat ^ a * d.num.toNat ^ c) :=
        Nat.div_le_div_right (Nat.mul_le_mul_left _ (Nat.pow_le_pow_left (by omega) c))
    _ = n * d.den ^ a / d.num.toNat ^ a :=
        Nat.mul_div_mul_right _ _ (pow_pos (by omega) c)

theorem intFloorDivPow_zero (n : Nat) (d : ℚ) : intFloorDivPow n d 0 = n := by
  simp [intFloorDivPow]

/-! ### Claims -/

/-- C10: for every state and every trial, the train-completed event handler
returns an empty operation list and leaves the entire bracket state (and the
id counter) unchanged. -/
theorem c10_trainCompleted_frame (s : asyncHalvingSearch) (ctx rid : Nat) :
    trainCompleted s ctx rid = (s, ctx, []) := rfl

/-- C8: if the reported metrics do not contain the configured metric name, the
validation call fails with `MissingMetric`, returns no operations, and leaves
the bracket state (and the id counter) unchanged. -/
theorem c8_missingMetric (s : asyncHalvingSearch) (ctx rid : Nat)
    (metrics : List (String × ℚ))
    (h : metrics.find? (fun p => p.1 == s.config.metric) = none) :
    validationCompleted s ctx rid metrics =
      ((s, ctx, []), some searcherError.missingMetric) := by
  simp [validationCompleted, metricsGet, h]

/-- Witness for C8 at a concrete input: metrics reported under the wrong name. -/
theorem c8_missingMetric_witness :
    validationCompleted (newAsyncHalvingSearch cfgA) 0 0 [("accuracy", 1)] =
      ((newAsyncHalvingSearch cfgA, 0, []), some searcherError.missingMetric) :=
  c8_missingMetric _ _ _ _ (by decide)

/-- C6 counterexample: a `validation_completed` call for a trial id the core
never created does not fail (there is no `UnknownTrial` check in the code); the
call succeeds and processes the unknown trial as if it sat at rung 0. -/
theorem c6_unknownTrial_cex :
    mapContains (runASHA cfgB []).1.trialRungs 99 = false ∧
      (validationCompleted (runASHA cfgB []).1 (runASHA cfgB []).2.1 99 [("loss", 3)]).2 =
        none := by
  constructor
  · decide
  · decide

/-- C6 (amended): a call with an unknown trial id does not fail: the missing
map entry reads as rung 0 (Go's zero value) and the call proceeds normally
(`trial_exited_early` never fails by construction). -/
theorem c6_unknownTrial_amended (s : asyncHalvingSearch) (ctx rid : Nat)
    (metrics : List (String × ℚ)) (v : ℚ)
    (hunk : mapContains s.trialRungs rid = false)
    (hm : metricsGet metrics s.config.metric = Except.ok v) :
    mapGetD s.trialRungs rid 0 = 0 ∧ (validationCompleted s ctx rid metrics).2 = none := by
  refine ⟨mapGetD_of_not_contains _ _ _ hunk, ?_⟩
  simp [validationCompleted, hm]

/-- Witness for the amended C6 at a concrete input. -/
theorem c6_unknownTrial_amended_witness :
    mapGetD (runASHA cfgB []).1.trialRungs 99 0 = 0 ∧
      (validationCompleted (runASHA cfgB []).1 (runASHA cfgB []).2.1 99 [("loss", 3)]).2 =
        none :=
  c6_unknownTrial_amended _ _ _ _ 3 (by decide) rfl

/-- C7 counterexample: with `divisor = 2`, `num_rungs = 2`, `max_length = 1`
(all within the claim's hypotheses) both rungs clamp to one training unit, so
the rung ladder is not strictly increasing. -/
theorem c7_rungLadder_cex :
    (2 : ℚ) ≤ cfgD.divisor ∧ 1 ≤ cfgD.numRungs ∧ 1 ≤ cfgD.targetTrialSteps ∧
      ¬ (((newAsyncHalvingSearch cfgD).rungs.getD 0 default).stepsNeeded <
          ((newAsyncHalvingSearch cfgD).rungs.getD 1 default).stepsNeeded) := by
  refine ⟨by decide, by decide, by decide, by decide⟩

/-- C7 (amended): construction yields exactly `num_rungs` rungs with
`length_units[k] = max(1, floor(max_length / divisor^(num_rungs-1-k)))`, the
sequence is non-decreasing in `k` (not strictly increasing: equal neighbours
occur when the floor clamps to 1), and the top rung trains for `max_length`. -/
theorem c7_rungLadder_amended (config : AsyncHalvingConfig)
    (hd : (2 : ℚ) ≤ config.divisor) (hn : 1 ≤ config.numRungs)
    (hl : 1 ≤ config.targetTrialSteps) :
    (newAsyncHalvingSearch config).rungs.length = config.numRungs ∧
      (∀ k, k < config.numRungs →
        ((newAsyncHalvingSearch config).rungs.getD k default).stepsNeeded =
          max 1 ⌊(config.targetTrialSteps : ℚ) /
              config.divisor ^ (config.numRungs - 1 - k)⌋₊) ∧
      (∀ j k, j ≤ k → k < config.numRungs →
        ((newAsyncHalvingSearch config).rungs.getD j default).stepsNeeded ≤
          ((newAsyncHalvingSearch config).rungs.getD k default).stepsNeeded) ∧
      ((newAsyncHalvingSearch config).rungs.getD (config.numRungs - 1) default).stepsNeeded =
        config.targetTrialSteps := by
  have hd0 : (0 : ℚ) < config.divisor := lt_of_lt_of_le (by norm_num) hd
  have hlen : (newAsyncHalvingSearch config).rungs.length = config.numRungs := by
    simp [newAsyncHalvingSearch]
  have hget : ∀ k, k < config.numRungs →
      ((newAsyncHalvingSearch config).rungs.getD k default).stepsNeeded =
        max (intFloorDivPow config.targetTrialSteps config.divisor
          (config.numRungs - k - 1)) 1 := by
    intro k hk
    rw [List.getD_eq_getElem _ _ (by omega)]
    simp [newAsyncHalvingSearch]
  refine ⟨hlen, ?_, ?_, ?_⟩
  · intro k hk
    rw [hget k hk, intFloorDivPow_eq_floor _ _ _ hd0,
      show config.numRungs - k - 1 = config.numRungs - 1 - k by omega, Nat.max_comm]
  · intro j k hjk hk
    rw [hget j (by omega), hget k hk]
    have := intFloorDivPow_antitone config.targetTrialSteps config.divisor hd
      (config.numRungs - k - 1) (config.numRungs - j - 1) (by omega)
    omega
  · rw [hget (config.numRungs - 1) (by omega),
      show config.numRungs - (config.numRungs - 1) - 1 = 0 by omega, intFloorDivPow_zero]
    omega

/-- Witness for the amended C7 at a concrete configuration. -/
theorem c7_rungLadder_amended_witness :
    ((newAsyncHalvingSearch cfgA).rungs.getD (cfgA.numRungs - 1) default).stepsNeeded =
      cfgA.targetTrialSteps :=
  (c7_rungLadder_amended cfgA (by decide) (by decide) (by decide)).2.2.2

end Searcher

namespace Searcher

/-! ### Frame facts: the searcher never changes its configuration -/

theorem promoteTail_frame (s : asyncHalvingSearch) (ctx : Nat) (ops : List Operation)
    (added : Bool) :
    (promoteTail s ctx ops added).1.config = s.config ∧
      (promoteTail s ctx ops added).1.maxTrials = s.maxTrials ∧
      (promoteTail s ctx ops added).1.earlyExitTrials = s.earlyExitTrials := by
  simp only [promoteTail]
  split_ifs <;> exact ⟨rfl, rfl, rfl⟩

theorem promoteLoop_frame
    (recur : asyncHalvingSearch → Nat → Nat → ℚ → asyncHalvingSearch × Nat × List Operation)
    (hrec : ∀ s' c' p' m', (recur s' c' p' m').1.config = s'.config ∧
      (recur s' c' p' m').1.maxTrials = s'.maxTrials ∧
      (recur s' c' p' m').1.earlyExitTrials = s'.earlyExitTrials) (rungIndex : Nat) :
    ∀ promos s ctx ops added,
      (promoteLoop recur rungIndex s ctx promos ops added).1.config = s.config ∧
        (promoteLoop recur rungIndex s ctx promos ops added).1.maxTrials = s.maxTrials ∧
        (promoteLoop recur rungIndex s ctx promos ops added).1.earlyExitTrials =
          s.earlyExitTrials := by
  intro promos
  induction promos with
  | nil =>
    intro s ctx ops added
    exact promoteTail_frame _ _ _ _
  | cons pid rest ih =>
    intro s ctx ops added
    simp only [promoteLoop]
    split_ifs
    · exact hrec _ _ _ _
    · exact ih _ _ _ _

theorem promoteAux_frame (fuel : Nat) :
    ∀ s ctx rid m,
      (promoteAux fuel s ctx rid m).1.config = s.config ∧
        (promoteAux fuel s ctx rid m).1.maxTrials = s.maxTrials ∧
        (promoteAux fuel s ctx rid m).1.earlyExitTrials = s.earlyExitTrials := by
  induction fuel with
  | zero =>
    intro s ctx rid m
    exact ⟨rfl, rfl, rfl⟩
  | succ fuel ih =>
    intro s ctx rid m
    simp only [promoteAux]
    split_ifs
    · exact promoteTail_frame _ _ _ _
    · exact promoteTail_frame _ _ _ _
    · exact promoteLoop_frame _ (fun s' c' p' m' => ih s' c' p' m') _ _ _ _ _ _

theorem step_frame (s : asyncHalvingSearch) (ctx : Nat) (e : Event) :
    (step s ctx e).1.config = s.config ∧ (step s ctx e).1.maxTrials = s.maxTrials := by
  cases e with
  | validation rid ms =>
    simp only [step, validationCompleted]
    cases metricsGet ms s.config.metric with
    | error e => exact ⟨rfl, rfl⟩
    | ok raw =>
      have := promoteAux_frame s.config.numRungs s ctx rid
        (if s.config.smallerIsBetter then raw else -raw)
      exact ⟨this.1, this.2.1⟩
  | exitedEarly rid =>
    have := promoteAux_frame s.config.numRungs
      { s with earlyExitTrials := insertUnique s.earlyExitTrials rid } ctx rid
      ashaExitedMetricValue
    exact ⟨this.1, this.2.1⟩

theorem runEvents_frame :
    ∀ events s ctx, (runEvents s ctx events).1.config = s.config ∧
      (runEvents s ctx events).1.maxTrials = s.maxTrials := by
  intro events
  induction events with
  | nil =>
    intro s ctx
    exact ⟨rfl, rfl⟩
  | cons e es ih =>
    intro s ctx
    have h1 := step_frame s ctx e
    have h2 := ih (step s ctx e).1 (step s ctx e).2.1
    exact ⟨h1.1 ▸ h2.1, h1.2 ▸ h2.2⟩

theorem initLoop_frame (steps : Nat) :
    ∀ n s ctx, (initLoop steps s ctx n).1.config = s.config ∧
      (initLoop steps s ctx n).1.maxTrials = s.maxTrials := by
  intro n
  induction n with
  | zero =>
    intro s ctx
    exact ⟨rfl, rfl⟩
  | succ n ih =>
    intro s ctx
    simp only [initLoop]
    exact ih _ _

theorem runASHA_frame (config : AsyncHalvingConfig) (events : List Event) :
    (runASHA config events).1.config = config ∧
      (runASHA config events).1.maxTrials = config.maxTrials := by
  have h0 := initLoop_frame ((newAsyncHalvingSearch config).rungs.getD 0 default).stepsNeeded
    (if 0 < (newAsyncHalvingSearch config).config.maxConcurrentTrials then
       min (newAsyncHalvingSearch config).config.maxConcurrentTrials
         (newAsyncHalvingSearch config).config.maxTrials
     else
       max (min (intPow (newAsyncHalvingSearch config).config.divisor
         ((newAsyncHalvingSearch config).config.numRungs - 1))
         (newAsyncHalvingSearch config).config.maxTrials) 1)
    (newAsyncHalvingSearch config) 0
  have h1 := runEvents_frame events (initialOperations (newAsyncHalvingSearch config) 0).1
    (initialOperations (newAsyncHalvingSearch config) 0).2.1
  refine ⟨?_, ?_⟩
  · rw [runASHA]
    rw [h1.1]
    exact h0.1
  · rw [runASHA]
    rw [h1.2]
    exact h0.2

end Searcher

namespace Searcher

theorem countP_promoted_ge (l : List trialMetric) (k : Nat) (hk : k ≤ l.length)
    (h : ∀ j, j < k → (l.getD j default).promoted = true) :
    k ≤ l.countP (fun t => t.promoted) := by
  induction l generalizing k with
  | nil =>
    simp only [List.length_nil, Nat.le_zero] at hk
    omega
  | cons t rest ih =>
    cases k with
    | zero => omega
    | succ k =>
      have ht : t.promoted = true := h 0 (by omega)
      have htail := ih k (by simpa using hk) (fun j hj => h (j + 1) (by omega))
      rw [List.countP_cons]
      simp only [ht, if_true]
      omega

/-- C2 counterexample: after the five validations of `evsA` (a valid event
stream), rung 0 holds five entries of which two are promoted, while
`floor(len(metrics)/divisor) = floor(5/4) = 1`. -/
theorem c2_promotionCount_cex :
    validEvents (initialOperations (newAsyncHalvingSearch cfgA) 0).1
        (initialOperations (newAsyncHalvingSearch cfgA) 0).2.1 evsA = true ∧
      ¬ (((runASHA cfgA evsA).1.rungs.getD 0 default).metrics.countP (fun t => t.promoted) =
          ⌊(((runASHA cfgA evsA).1.rungs.getD 0 default).metrics.length : ℚ) /
            (runASHA cfgA evsA).1.config.divisor⌋₊) := by
  refine ⟨by decide, ?_⟩
  intro h
  have hcount : ((runASHA cfgA evsA).1.rungs.getD 0 default).metrics.countP
      (fun t => t.promoted) = 2 := by decide
  have hlen : ((runASHA cfgA evsA).1.rungs.getD 0 default).metrics.length = 5 := by decide
  have hdiv : (runASHA cfgA evsA).1.config.divisor = 4 := by decide
  rw [hcount, hlen, hdiv, ← intFloorDiv_eq_floor 5 4 (by norm_num)] at h
  exact absurd h (by decide)

/-- C2 (amended): after every public call, in each rung the
`floor(len(metrics)/divisor)` best entries all have `promoted == true`, so the
number of promoted entries is at least `floor(len(metrics)/divisor)` (it can
exceed it, as the counterexample shows: a later arrival into the promotion
window is promoted without growing the window). -/
theorem c2_promotionCount_amended (config : AsyncHalvingConfig)
    (hd : (2 : ℚ) ≤ config.divisor) (events : List Event) :
    ∀ r ∈ (runASHA config events).1.rungs,
      (∀ j, j < ⌊(r.metrics.length : ℚ) / config.divisor⌋₊ →
        (r.metrics.getD j default).promoted = true) ∧
      ⌊(r.metrics.length : ℚ) / config.divisor⌋₊ ≤
        r.metrics.countP (fun t => t.promoted) := by
  intro r hr
  have hd0 : (0 : ℚ) < config.divisor := lt_of_lt_of_le (by norm_num) hd
  have hinv := sinv_runASHA config events hd
  have hc := (runASHA_frame config events).1
  have hlb := hinv.lb r hr
  rw [hc] at hlb
  have hfl : ⌊(r.metrics.length : ℚ) / config.divisor⌋₊ =
      intFloorDiv r.metrics.length config.divisor :=
    (intFloorDiv_eq_floor _ _ hd0).symm
  rw [hfl]
  refine ⟨hlb, ?_⟩
  exact countP_promoted_ge r.metrics _ (intFloorDiv_le_self _ _ hd) hlb

/-- Witness for the amended C2: the bound holds on rung 0 of the `cfgA` run,
where the promoted count (2) strictly exceeds the floor (1). -/
theorem c2_promotionCount_amended_witness :
    ⌊((((runASHA cfgA evsA).1.rungs.getD 0 default).metrics.length : ℚ) / cfgA.divisor)⌋₊ ≤
      ((runASHA cfgA evsA).1.rungs.getD 0 default).metrics.countP (fun t => t.promoted) :=
  (c2_promotionCount_amended cfgA (by decide) evsA
    ((runASHA cfgA evsA).1.rungs.getD 0 default) (by decide)).2

/-- C4: after every public call, every rung's metrics sequence is sorted
non-decreasingly by metric, and each insertion places the new entry after all
entries with metric less than or equal to it (so equal metrics keep insertion
order). -/
theorem c4_sortedRungs (config : AsyncHalvingConfig) (hd : (2 : ℚ) ≤ config.divisor)
    (events : List Event) :
    (∀ r ∈ (runASHA config events).1.rungs,
        r.metrics.Pairwise (fun a b => a.metric ≤ b.metric)) ∧
      (∀ (l : List trialMetric) (m : ℚ), l.Pairwise (fun a b => a.metric ≤ b.metric) →
        ∀ k, k < l.length → (l.getD k default).metric ≤ m → k < insertIndexOf l m) := by
  constructor
  · exact fun r hr => (sinv_runASHA config events hd).sorted r hr
  · intro l m hs k hk hle
    by_contra hcon
    have := (insertIndexOf_spec l m hs).2 k (by omega) hk
    exact absurd hle (not_le.mpr this)

/-- Witness for C4 on the `cfgA` run, plus a concrete stable insertion: into
the sorted metrics `[10, 20, 30]` a new metric `20` is inserted at index 2,
after the existing equal entry. -/
theorem c4_sortedRungs_witness :
    (∀ r ∈ (runASHA cfgA evsA).1.rungs,
        r.metrics.Pairwise (fun a b => a.metric ≤ b.metric)) ∧
      1 < insertIndexOf [⟨0, 10, false, false⟩, ⟨1, 20, false, false⟩,
        ⟨2, 30, false, false⟩] 20 :=
  ⟨(c4_sortedRungs cfgA (by decide) evsA).1,
    (c4_sortedRungs cfgA (by decide) evsA).2
      [⟨0, 10, false, false⟩, ⟨1, 20, false, false⟩, ⟨2, 30, false, false⟩] 20
      (by decide) 1 (by decide) (by decide)⟩

end Searcher

namespace Searcher

/-- C1: full characterisation of `insert_and_select_promotion`
(`promotionsAsync`) on a sorted rung, writing `i` for the insertion index,
`newN = floor((len+1)/divisor)` and `oldN = floor(len/divisor)`:
(1) every entry before `i` has metric ≤ the new metric and every entry from
`i` on has metric > it (stable insertion, after equals);
(2) the list grows by one and slot `i` holds the new entry with
`promoted = (i < newN)` and `closed = false`;
(3) if `i < newN` the promotion list is `[requestID]`;
(4) otherwise, if the window grew (`oldN < newN`) and the entry at slot `oldN`
was unpromoted, that entry's flag is set and its trial is returned;
(5) otherwise the promotion list is empty;
(6) at most one trial is ever returned. -/
theorem c1_promotionsAsync_spec (r : rung) (rid : Nat) (m d : ℚ)
    (hd : (2 : ℚ) ≤ d) (hs : rungSorted r) :
    ((∀ k, k < insertIndexOf r.metrics m → (r.metrics.getD k default).metric ≤ m) ∧
      (∀ k, insertIndexOf r.metrics m ≤ k → k < r.metrics.length →
        m < (r.metrics.getD k default).metric) ∧
      insertIndexOf r.metrics m ≤ r.metrics.length) ∧
    ((promotionsAsync r rid m d).1.metrics.length = r.metrics.length + 1 ∧
      (promotionsAsync r rid m d).1.metrics.getD (insertIndexOf r.metrics m) default =
        ⟨rid, m, decide (insertIndexOf r.metrics m <
          ⌊((r.metrics.length + 1 : ℕ) : ℚ) / d⌋₊), false⟩) ∧
    (insertIndexOf r.metrics m < ⌊((r.metrics.length + 1 : ℕ) : ℚ) / d⌋₊ →
      (promotionsAsync r rid m d).2 = [rid]) ∧
    (¬ insertIndexOf r.metrics m < ⌊((r.metrics.length + 1 : ℕ) : ℚ) / d⌋₊ →
      ⌊((r.metrics.length : ℕ) : ℚ) / d⌋₊ < ⌊((r.metrics.length + 1 : ℕ) : ℚ) / d⌋₊ →
      (r.metrics.getD ⌊((r.metrics.length : ℕ) : ℚ) / d⌋₊ default).promoted = false →
      (promotionsAsync r rid m d).2 =
          [(r.metrics.getD ⌊((r.metrics.length : ℕ) : ℚ) / d⌋₊ default).requestID] ∧
        ((promotionsAsync r rid m d).1.metrics.getD
          ⌊((r.metrics.length : ℕ) : ℚ) / d⌋₊ default).promoted = true) ∧
    (¬ insertIndexOf r.metrics m < ⌊((r.metrics.length + 1 : ℕ) : ℚ) / d⌋₊ →
      (⌊((r.metrics.length + 1 : ℕ) : ℚ) / d⌋₊ = ⌊((r.metrics.length : ℕ) : ℚ) / d⌋₊ ∨
        (r.metrics.getD ⌊((r.metrics.length : ℕ) : ℚ) / d⌋₊ default).promoted = true) →
      (promotionsAsync r rid m d).2 = []) ∧
    (promotionsAsync r rid m d).2.length ≤ 1 := by
  have hd0 : (0 : ℚ) < d := lt_of_lt_of_le (by norm_num) hd
  have hnew : ⌊((r.metrics.length + 1 : ℕ) : ℚ) / d⌋₊ = intFloorDiv (r.metrics.length + 1) d :=
    (intFloorDiv_eq_floor _ _ hd0).symm
  have hold : ⌊((r.metrics.length : ℕ) : ℚ) / d⌋₊ = intFloorDiv r.metrics.length d :=
    (intFloorDiv_eq_floor _ _ hd0).symm
  have hspec := insertIndexOf_spec r.metrics m hs
  have hile := insertIndexOf_le r.metrics m
  have hmono := intFloorDiv_le_succ r.metrics.length d
  have hsucc := intFloorDiv_succ_le r.metrics.length d hd
  have hhalf := two_mul_intFloorDiv_le (r.metrics.length + 1) d hd
  rw [hnew, hold]
  refine ⟨⟨hspec.1, hspec.2, hile⟩, ⟨promotionsAsync_metrics_length r rid m d, ?_⟩,
    ?_, ?_, ?_, promotionsAsync_promos_len r rid m d⟩
  · -- slot `i` holds the new entry
    simp only [promotionsAsync]
    split_ifs with h1 h2
    · exact getD_listInsertAt_self _ _ _ _ hile
    · have holdlt : intFloorDiv r.metrics.length d < insertIndexOf r.metrics m := by omega
      rw [getD_modifyAt_ne _ _ _ _ _ (by omega)]
      exact getD_listInsertAt_self _ _ _ _ hile
    · exact getD_listInsertAt_self _ _ _ _ hile
  · -- promoteNow: the new trial itself is promoted
    intro h1
    simp only [promotionsAsync]
    rw [if_pos h1]
  · -- window grew onto an unpromoted entry
    intro h1 hgrow hflag
    have holdlt : intFloorDiv r.metrics.length d < insertIndexOf r.metrics m := by omega
    have hpre : ∀ pn : Bool,
        (listInsertAt r.metrics (insertIndexOf r.metrics m)
            ⟨rid, m, pn, false⟩).getD (intFloorDiv r.metrics.length d) default =
          r.metrics.getD (intFloorDiv r.metrics.length d) default :=
      fun pn => getD_listInsertAt_lt _ _ _ _ _ holdlt hile
    have hcond : intFloorDiv (r.metrics.length + 1) d ≠ intFloorDiv r.metrics.length d ∧
        ((listInsertAt r.metrics (insertIndexOf r.metrics m)
            ⟨rid, m, decide (insertIndexOf r.metrics m < intFloorDiv (r.metrics.length + 1) d),
              false⟩).getD (intFloorDiv r.metrics.length d) default).promoted = false := by
      refine ⟨by omega, ?_⟩
      rw [hpre]
      exact hflag
    simp only [promotionsAsync]
    rw [if_neg h1, if_pos hcond]
    constructor
    · rw [hpre]
    · rw [getD_modifyAt_self _ _ _ _ (by rw [length_listInsertAt]; omega)]
  · -- no promotion
    intro h1 hcase
    simp only [promotionsAsync]
    rw [if_neg h1, if_neg ?_]
    intro hcond
    rcases hcase with hng | hflag
    · exact absurd hng (by omega)
    · rw [getD_listInsertAt_lt _ _ _ _ _ (by omega) hile] at hcond
      rw [hflag] at hcond
      cases hcond.2

/-- Witness for C1 at a concrete sorted rung: inserting metric 5 into
`[10, 20, 30]` with divisor 4 promotes the newcomer immediately. -/
theorem c1_promotionsAsync_spec_witness :
    (promotionsAsync
        { stepsNeeded := 1, outstandingTrials := 3,
          metrics := [⟨0, 10, true, false⟩, ⟨1, 20, false, false⟩, ⟨2, 30, false, false⟩] }
        7 5 4).2 = [7] :=
  (c1_promotionsAsync_spec
      { stepsNeeded := 1, outstandingTrials := 3,
        metrics := [⟨0, 10, true, false⟩, ⟨1, 20, false, false⟩, ⟨2, 30, false, false⟩] }
      7 5 4 (by decide) (by simp only [rungSorted]; decide)).2.2.1
    (by rw [← intFloorDiv_eq_floor _ 4 (by norm_num)]; decide)

/-- C3 (code bug): over the valid two-validation stream of `cfgB`, the
concatenated operation stream contains `Close{0}` twice — `closeOutRungs`
appends one guarded and one unconditional `Close` for the same entry. -/
theorem c3_close_emitted_twice :
    validEvents (initialOperations (newAsyncHalvingSearch cfgB) 0).1
        (initialOperations (newAsyncHalvingSearch cfgB) 0).2.1 evsB = true ∧
      countOp (runASHA cfgB evsB).2.2 (Operation.close 0) = 2 := by
  exact ⟨by decide, by decide⟩

end Searcher

namespace Searcher

/-! ### The trial-cap invariant and its preservation -/

theorem length_mapInsert_ge (m : List (Nat × Nat)) (k v : Nat) :
    m.length ≤ (mapInsert m k v).length := by
  rw [length_mapInsert]
  split <;> omega

theorem length_mapInsert_of_contains (m : List (Nat × Nat)) (k v : Nat)
    (h : mapContains m k = true) : (mapInsert m k v).length = m.length := by
  rw [length_mapInsert, if_pos h]

theorem mem_closeRungMetrics_ids (ee : List Nat) (l : List trialMetric) (t : trialMetric)
    (ht : t ∈ (closeRungMetrics ee l).1) : ∃ t', t' ∈ l ∧ t.requestID = t'.requestID := by
  rcases List.mem_iff_getElem.mp ht with ⟨j, hj, hget⟩
  have hlen : j < l.length := by
    have := closeRungMetrics_length ee l
    omega
  refine ⟨l.getD j default, ?_, ?_⟩
  · rw [List.getD_eq_getElem l default hlen]
    exact List.getElem_mem hlen
  · rw [← hget, ← List.getD_eq_getElem (closeRungMetrics ee l).1 default hj]
    exact (closeRungMetrics_fields ee l j).1

theorem kinv_closeOutRungs (mt : Nat) (s : asyncHalvingSearch) (h : KInv mt s) :
    KInv mt (closeOutRungs s).1 := by
  refine ⟨h.mteq, h.cap, ?_, h.hd2⟩
  intro r hr t ht
  have hgo : ∀ rs : List rung, (∀ r' ∈ rs, ∀ t' ∈ r'.metrics,
      mapContains s.trialRungs t'.requestID = true) →
      ∀ r' ∈ (closeRungsGo s.earlyExitTrials rs).1, ∀ t' ∈ r'.metrics,
        mapContains s.trialRungs t'.requestID = true := by
    intro rs
    induction rs with
    | nil => simp [closeRungsGo]
    | cons r0 rest ih =>
      intro hk r' hr' t' ht'
      by_cases ho : r0.outstandingTrials > 0
      · simp only [closeRungsGo, ho, if_pos] at hr'
        exact hk r' hr' t' ht'
      · simp only [closeRungsGo, ho, if_neg, not_false_iff] at hr'
        rcases List.mem_cons.mp hr' with rfl | hr''
        · rcases mem_closeRungMetrics_ids s.earlyExitTrials r0.metrics t' ht' with ⟨u, hu, he⟩
          rw [he]
          exact hk r0 (by simp) u hu
        · exact ih (fun r hr t ht => hk r (by simp [hr]) t ht) r' hr'' t' ht'
  exact hgo s.rungs h.keys r hr t ht

theorem kinv_modifyRungAt (mt : Nat) (s : asyncHalvingSearch) (k : Nat) (f : rung → rung)
    (hf : ∀ r, (f r).metrics = r.metrics) (h : KInv mt s) : KInv mt (modifyRungAt s k f) := by
  refine ⟨h.mteq, h.cap, ?_, h.hd2⟩
  intro r hr t ht
  rcases mem_modifyAt f k s.rungs r hr with hr' | ⟨b, hb, rfl⟩
  · exact h.keys r hr' t ht
  · rw [hf b] at ht
    exact h.keys b hb t ht

theorem kinv_createState (mt : Nat) (s : asyncHalvingSearch) (ctx : Nat)
    (hcap : s.trialRungs.length < s.maxTrials) (h : KInv mt s) :
    KInv mt { modifyRungAt s 0 (fun r => { r with outstandingTrials := r.outstandingTrials + 1 }) with
              trialRungs := mapInsert s.trialRungs ctx 0 } := by
  have h1 := kinv_modifyRungAt mt s 0
    (fun r => { r with outstandingTrials := r.outstandingTrials + 1 }) (fun r => rfl) h
  refine ⟨h1.mteq, ?_, ?_, h1.hd2⟩
  · show (mapInsert s.trialRungs ctx 0).length ≤ mt
    have hle := length_mapInsert_le s.trialRungs ctx 0
    have hmt := h.mteq
    omega
  · intro r hr t ht
    exact mapContains_mapInsert_of_contains _ _ _ _ (h1.keys r hr t ht)

theorem kinv_promoteTail (mt : Nat) (s : asyncHalvingSearch) (ctx : Nat)
    (ops : List Operation) (added : Bool) (h : KInv mt s) :
    KInv mt (promoteTail s ctx ops added).1 := by
  simp only [promoteTail]
  split_ifs with h1 h2 h3
  · exact kinv_closeOutRungs _ _ (kinv_createState mt s ctx h2.2 h)
  · exact kinv_closeOutRungs _ _ h
  · exact kinv_createState mt s ctx h3.2 h
  · exact h

theorem kinv_promoteLoop (mt : Nat)
    (recur : asyncHalvingSearch → Nat → Nat → ℚ → asyncHalvingSearch × Nat × List Operation)
    (hrec : ∀ s' c' p' m', KInv mt s' → mapContains s'.trialRungs p' = true →
      KInv mt (recur s' c' p' m').1) (rungIndex : Nat) :
    ∀ promos s ctx ops added, KInv mt s →
      (∀ p ∈ promos, mapContains s.trialRungs p = true) →
      KInv mt (promoteLoop recur rungIndex s ctx promos ops added).1 := by
  intro promos
  induction promos with
  | nil =>
    intro s ctx ops added h _
    exact kinv_promoteTail _ _ _ _ _ h
  | cons pid rest ih =>
    intro s ctx ops added h hmem
    simp only [promoteLoop]
    have hpid : mapContains s.trialRungs pid = true := hmem pid (by simp)
    have h1 : KInv mt { s with trialRungs := mapInsert s.trialRungs pid (rungIndex + 1) } := by
      refine ⟨h.mteq, ?_, ?_, h.hd2⟩
      · rw [length_mapInsert_of_contains _ _ _ hpid]
        exact h.cap
      · intro r hr t ht
        exact mapContains_mapInsert_of_contains _ _ _ _ (h.keys r hr t ht)
    have h2 := kinv_modifyRungAt mt _ (rungIndex + 1)
      (fun r => { r with outstandingTrials := r.outstandingTrials + 1 }) (fun r => rfl) h1
    split_ifs
    · refine hrec _ _ _ _ h2 ?_
      exact mapContains_mapInsert_self _ _ _
    · refine ih _ _ _ _ h2 ?_
      intro p hp
      exact mapContains_mapInsert_of_contains _ _ _ _ (hmem p (by simp [hp]))

theorem kinv_promoteAux (mt : Nat) (fuel : Nat) :
    ∀ s ctx rid m, KInv mt s → mapContains s.trialRungs rid = true →
      KInv mt (promoteAux fuel s ctx rid m).1 := by
  induction fuel with
  | zero =>
    intro s ctx rid m h _
    exact h
  | succ fuel ih =>
    intro s ctx rid m h hrid
    simp only [promoteAux]
    have h1 := kinv_modifyRungAt mt s (mapGetD s.trialRungs rid 0)
      (fun r => { r with outstandingTrials := r.outstandingTrials - 1 }) (fun r => rfl) h
    split_ifs
    · exact kinv_promoteTail _ _ _ _ _ ⟨h1.mteq, h1.cap, h1.keys, h1.hd2⟩
    · exact kinv_promoteTail _ _ _ _ _ ⟨h1.mteq, h1.cap, h1.keys, h1.hd2⟩
    · have hK1 : KInv mt (modifyRungAt s (mapGetD s.trialRungs rid 0)
          (fun r => { r with outstandingTrials := r.outstandingTrials - 1 })) := h1
      have hrungmem : ∀ t ∈ ((modifyRungAt s (mapGetD s.trialRungs rid 0)
          (fun r => { r with outstandingTrials := r.outstandingTrials - 1 })).rungs.getD
            (mapGetD s.trialRungs rid 0) default).metrics,
          mapContains s.trialRungs t.requestID = true := by
        intro t ht
        set s1 := modifyRungAt s (mapGetD s.trialRungs rid 0)
          (fun r => { r with outstandingTrials := r.outstandingTrials - 1 }) with hs1
        by_cases hk : mapGetD s.trialRungs rid 0 < s1.rungs.length
        · have hm : s1.rungs.getD (mapGetD s.trialRungs rid 0) default ∈ s1.rungs := by
            rw [List.getD_eq_getElem s1.rungs default hk]
            exact List.getElem_mem hk
          exact hK1.keys _ hm t ht
        · rw [List.getD_eq_default s1.rungs default (by omega)] at ht
          simp [show (default : rung).metrics = [] from rfl] at ht
      refine kinv_promoteLoop mt _ (fun s' c' p' m' h' hp' => ih s' c' p' m' h' hp') _ _ _ _ _ _ ?_ ?_
      · refine ⟨h1.mteq, h1.cap, ?_, h1.hd2⟩
        refine rungsProp_set (fun r => ∀ t ∈ r.metrics, mapContains _ t.requestID = true)
          _ _ _ ?_ h1.keys
        intro t ht
        rcases promotionsAsync_metrics_ids _ rid m _ t ht with he | ⟨t', ht', he⟩
        · rw [he]
          exact hrid
        · rw [he]
          exact hrungmem t' ht'
      · intro p hp
        rcases promotionsAsync_promos_mem _ rid m _ h1.hd2 p hp with rfl | ⟨t, ht, rfl⟩
        · exact hrid
        · exact hrungmem t ht

end Searcher

namespace Searcher

theorem kinv_step (mt : Nat) (s : asyncHalvingSearch) (ctx : Nat) (e : Event)
    (h : KInv mt s) (he : mapContains s.trialRungs e.requestID = true) :
    KInv mt (step s ctx e).1 := by
  cases e with
  | validation rid ms =>
    simp only [step, validationCompleted]
    cases metricsGet ms s.config.metric with
    | error err => exact h
    | ok raw => exact kinv_promoteAux mt _ _ _ _ _ h he
  | exitedEarly rid =>
    exact kinv_promoteAux mt _ _ _ _ _ ⟨h.mteq, h.cap, h.keys, h.hd2⟩ he

theorem kinv_runEvents (mt : Nat) :
    ∀ events s ctx, KInv mt s → validEvents s ctx events = true →
      KInv mt (runEvents s ctx events).1 := by
  intro events
  induction events with
  | nil =>
    intro s ctx h _
    exact h
  | cons e es ih =>
    intro s ctx h hv
    simp only [validEvents, Bool.and_eq_true] at hv
    exact ih _ _ (kinv_step mt s ctx e h hv.1) hv.2

theorem kinv_initLoop (mt steps : Nat) :
    ∀ n s ctx, s.maxTrials = mt → s.trialRungs.length + n ≤ mt →
      (∀ r ∈ s.rungs, ∀ t ∈ r.metrics, mapContains s.trialRungs t.requestID = true) →
      (2 : ℚ) ≤ s.config.divisor →
      KInv mt (initLoop steps s ctx n).1 := by
  intro n
  induction n with
  | zero =>
    intro s ctx h1 h2 h3 h4
    refine ⟨h1, ?_, h3, h4⟩
    show s.trialRungs.length ≤ mt
    omega
  | succ n ih =>
    intro s ctx h1 h2 h3 h4
    simp only [initLoop]
    refine ih _ _ h1 ?_ ?_ h4
    · show (mapInsert s.trialRungs ctx 0).length + n ≤ mt
      have := length_mapInsert_le s.trialRungs ctx 0
      omega
    · intro r hr t ht
      show mapContains (mapInsert s.trialRungs ctx 0) t.requestID = true
      refine mapContains_mapInsert_of_contains _ _ _ _ ?_
      rcases mem_modifyAt _ 0 s.rungs r hr with hr' | ⟨b, hb, rfl⟩
      · exact h3 r hr' t ht
      · exact h3 b hb t ht

theorem initialConcurrency_le (config : AsyncHalvingConfig) (hmt : 1 ≤ config.maxTrials) :
    (if 0 < config.maxConcurrentTrials then
        min config.maxConcurrentTrials config.maxTrials
      else
        max (min (intPow config.divisor (config.numRungs - 1)) config.maxTrials) 1) ≤
      config.maxTrials := by
  split_ifs
  · exact min_le_right _ _
  · have := Nat.min_le_right (intPow config.divisor (config.numRungs - 1)) config.maxTrials
    omega

theorem kinv_runASHA (config : AsyncHalvingConfig) (hd : (2 : ℚ) ≤ config.divisor)
    (hmt : 1 ≤ config.maxTrials) (events : List Event)
    (hv : validEvents (initialOperations (newAsyncHalvingSearch config) 0).1
        (initialOperations (newAsyncHalvingSearch config) 0).2.1 events = true) :
    KInv config.maxTrials (runASHA config events).1 := by
  have hinit : KInv config.maxTrials (initialOperations (newAsyncHalvingSearch config) 0).1 := by
    refine kinv_initLoop config.maxTrials _ _ _ _ rfl ?_ ?_ hd
    · have := initialConcurrency_le config hmt
      simpa [newAsyncHalvingSearch] using this
    · intro r hr t ht
      rcases List.mem_map.mp hr with ⟨id, _, rfl⟩
      simp at ht
  exact kinv_runEvents _ events _ _ hinit hv

/-! ### `Create` operations are only emitted below the trial cap -/

theorem countCreate_append (a b : List Operation) :
    countCreate (a ++ b) = countCreate a + countCreate b :=
  List.countP_append _ _ _

theorem countCreate_trainAndValidate (id a b : Nat) :
    countCreate (trainAndValidate id a b) = 0 := rfl

theorem countCreate_closeRungMetrics (ee : List Nat) (l : List trialMetric) :
    countCreate (closeRungMetrics ee l).2.2 = 0 := by
  induction l with
  | nil => rfl
  | cons t rest ih =>
    simp only [closeRungMetrics]
    by_cases hc : t.promoted = false ∧ t.closed = false
    · rw [if_pos hc]
      show countCreate (((if ee.contains t.requestID then [] else [Operation.close t.requestID]) ++
        [Operation.close t.requestID]) ++ (closeRungMetrics ee rest).2.2) = 0
      rw [countCreate_append, countCreate_append, ih]
      split_ifs <;> rfl
    · rw [if_neg hc]
      exact ih

theorem countCreate_closeRungsGo (ee : List Nat) (rs : List rung) :
    countCreate (closeRungsGo ee rs).2.2 = 0 := by
  induction rs with
  | nil => rfl
  | cons r rest ih =>
    simp only [closeRungsGo]
    by_cases ho : r.outstandingTrials > 0
    · rw [if_pos ho]
      rfl
    · rw [if_neg ho]
      show countCreate ((closeRungMetrics ee r.metrics).2.2 ++ (closeRungsGo ee rest).2.2) = 0
      rw [countCreate_append, countCreate_closeRungMetrics, ih]

theorem promoteTail_create (s : asyncHalvingSearch) (ctx : Nat) (ops : List Operation)
    (added : Bool) (h : countCreate (promoteTail s ctx ops added).2.2 ≠ 0) :
    countCreate ops ≠ 0 ∨ s.trialRungs.length < s.maxTrials := by
  revert h
  simp only [promoteTail]
  split_ifs with h1 h2 h3
  · intro _
    exact Or.inr h2.2
  · intro h
    left
    intro hops
    apply h
    show countCreate (ops ++ (closeRungsGo s.earlyExitTrials s.rungs).2.2) = 0
    rw [countCreate_append, countCreate_closeRungsGo, hops]
  · intro _
    exact Or.inr h3.2
  · intro h
    exact Or.inl h

theorem promoteLoop_create
    (recur : asyncHalvingSearch → Nat → Nat → ℚ → asyncHalvingSearch × Nat × List Operation)
    (hrec : ∀ s' c' p' m', countCreate (recur s' c' p' m').2.2 ≠ 0 →
      s'.trialRungs.length < s'.maxTrials) (rungIndex : Nat) :
    ∀ promos s ctx ops added,
      countCreate (promoteLoop recur rungIndex s ctx promos ops added).2.2 ≠ 0 →
      countCreate ops ≠ 0 ∨ s.trialRungs.length < s.maxTrials := by
  intro promos
  induction promos with
  | nil =>
    intro s ctx ops added h
    exact promoteTail_create _ _ _ _ h
  | cons pid rest ih =>
    intro s ctx ops added
    simp only [promoteLoop]
    split_ifs
    · intro h
      right
      have h3 : (mapInsert s.trialRungs pid (rungIndex + 1)).length < s.maxTrials :=
        hrec _ _ _ _ h
      have hle : s.trialRungs.length ≤ (mapInsert s.trialRungs pid (rungIndex + 1)).length :=
        length_mapInsert_ge _ _ _
      omega
    · intro h
      rcases ih _ _ _ _ h with h' | h'
      · left
        intro hops
        apply h'
        show countCreate (ops ++ trainAndValidate pid _ _) = 0
        rw [countCreate_append, countCreate_trainAndValidate, hops]
      · right
        have hle : s.trialRungs.length ≤ (mapInsert s.trialRungs pid (rungIndex + 1)).length :=
          length_mapInsert_ge _ _ _
        have : (mapInsert s.trialRungs pid (rungIndex + 1)).length < s.maxTrials := h'
        omega

theorem promoteAux_create (fuel : Nat) :
    ∀ s ctx rid m, countCreate (promoteAux fuel s ctx rid m).2.2 ≠ 0 →
      s.trialRungs.length < s.maxTrials := by
  induction fuel with
  | zero =>
    intro s ctx rid m h
    exact absurd rfl h
  | succ fuel ih =>
    intro s ctx rid m
    simp only [promoteAux]
    split_ifs with htop hee
    · intro h
      rcases promoteTail_create _ _ _ _ h with h' | h'
      · exact absurd rfl h'
      · exact h'
    · intro h
      rcases promoteTail_create _ _ _ _ h with h' | h'
      · exact absurd rfl h'
      · exact h'
    · intro h
      rcases promoteLoop_create _ (fun s' c' p' m' => ih s' c' p' m') _ _ _ _ _ _ h with h' | h'
      · exact absurd rfl h'
      · exact h'

theorem countCreate_initLoop (steps : Nat) :
    ∀ n s ctx, countCreate (initLoop steps s ctx n).2.2 = n := by
  intro n
  induction n with
  | zero =>
    intro s ctx
    rfl
  | succ n ih =>
    intro s ctx
    simp only [initLoop]
    show countCreate ((Operation.create ctx :: trainAndValidate ctx 0 steps) ++ _) = n + 1
    rw [countCreate_append, ih]
    have h1 : countCreate (Operation.create ctx :: trainAndValidate ctx 0 steps) = 1 := rfl
    omega

/-- C9: after every public call of a valid run, `len(trial_rung) ≤ max_trials`;
the `promote` path emits a `Create` only while `len(trial_rung) < max_trials`
(for every state, not just reachable ones); and `initial_operations` creates at
most `max_trials` trials. -/
theorem c9_trialCap (config : AsyncHalvingConfig) (hd : (2 : ℚ) ≤ config.divisor)
    (hmt : 1 ≤ config.maxTrials) (events : List Event)
    (hv : validEvents (initialOperations (newAsyncHalvingSearch config) 0).1
        (initialOperations (newAsyncHalvingSearch config) 0).2.1 events = true) :
    (runASHA config events).1.trialRungs.length ≤ config.maxTrials ∧
      (∀ fuel s ctx rid m, countCreate (promoteAux fuel s ctx rid m).2.2 ≠ 0 →
        s.trialRungs.length < s.maxTrials) ∧
      countCreate (initialOperations (newAsyncHalvingSearch config) 0).2.2 ≤
        config.maxTrials := by
  refine ⟨(kinv_runASHA config hd hmt events hv).cap,
    fun fuel s ctx rid m => promoteAux_create fuel s ctx rid m, ?_⟩
  show countCreate (initLoop _ _ _ _).2.2 ≤ config.maxTrials
  rw [countCreate_initLoop]
  exact initialConcurrency_le config hmt

/-- Witness for C9 on the `cfgA` run. -/
theorem c9_trialCap_witness :
    (runASHA cfgA evsA).1.trialRungs.length ≤ cfgA.maxTrials :=
  (c9_trialCap cfgA (by decide) (by decide) evsA (by decide)).1

end Searcher

namespace Searcher

/-! ### Generic support lemmas for the early-exit claim -/

theorem getD_set_self (l : List α) (n : Nat) (x d : α) (h : n < l.length) :
    (l.set n x).getD n d = x := by
  rw [List.getD_eq_getElem _ _ (by rw [List.length_set]; omega), List.getElem_set]
  rw [if_pos rfl]

theorem getD_set_ne (l : List α) (n : Nat) (x d : α) (j : Nat) (h : n ≠ j) :
    (l.set n x).getD j d = l.getD j d := by
  by_cases hj : j < l.length
  · rw [List.getD_eq_getElem _ _ (by rw [List.length_set]; omega), List.getElem_set,
      if_neg h, List.getD_eq_getElem _ _ hj]
  · rw [List.getD_eq_default _ _ (by rw [List.length_set]; omega),
      List.getD_eq_default _ _ (by omega)]

theorem metrics_modifyRungAt (s : asyncHalvingSearch) (j : Nat) (f : rung → rung)
    (hf : ∀ r, (f r).metrics = r.metrics) (k : Nat) :
    ((modifyRungAt s j f).rungs.getD k default).metrics = (s.rungs.getD k default).metrics := by
  show ((modifyAt f j s.rungs).getD k default).metrics = _
  by_cases hk : k < s.rungs.length
  · by_cases hjk : k = j
    · subst hjk
      rw [getD_modifyAt_self _ _ _ _ hk, hf]
    · rw [getD_modifyAt_ne _ _ _ _ _ (by omega)]
  · rw [List.getD_eq_default _ _ (by rw [modifyAt_length]; omega),
      List.getD_eq_default _ _ (by omega)]

theorem closeRungsGo_length (ee : List Nat) (rs : List rung) :
    (closeRungsGo ee rs).1.length = rs.length := by
  induction rs with
  | nil => rfl
  | cons r rest ih =>
    simp only [closeRungsGo]
    by_cases ho : r.outstandingTrials > 0
    · rw [if_pos ho]
    · rw [if_neg ho]
      simpa using ih

theorem closeRungsGo_getD_metrics (ee : List Nat) (rs : List rung) (k : Nat) :
    (((closeRungsGo ee rs).1.getD k default).metrics.length =
        ((rs.getD k default).metrics).length) ∧
      ∀ j, ((((closeRungsGo ee rs).1.getD k default).metrics.getD j default).requestID =
          (((rs.getD k default).metrics).getD j default).requestID ∧
        (((closeRungsGo ee rs).1.getD k default).metrics.getD j default).metric =
          (((rs.getD k default).metrics).getD j default).metric ∧
        (((closeRungsGo ee rs).1.getD k default).metrics.getD j default).promoted =
          (((rs.getD k default).metrics).getD j default).promoted) := by
  induction rs generalizing k with
  | nil => exact ⟨rfl, fun j => ⟨rfl, rfl, rfl⟩⟩
  | cons r rest ih =>
    simp only [closeRungsGo]
    by_cases ho : r.outstandingTrials > 0
    · rw [if_pos ho]
      exact ⟨rfl, fun j => ⟨rfl, rfl, rfl⟩⟩
    · rw [if_neg ho]
      cases k with
      | zero =>
        refine ⟨closeRungMetrics_length ee r.metrics, ?_⟩
        intro j
        exact closeRungMetrics_fields ee r.metrics j
      | succ k => exact ih k

theorem rungHasEntry_of_fields (r r' : rung) (rid : Nat) (v : ℚ)
    (hlen : r'.metrics.length = r.metrics.length)
    (hf : ∀ j, (r'.metrics.getD j default).requestID = (r.metrics.getD j default).requestID ∧
      (r'.metrics.getD j default).metric = (r.metrics.getD j default).metric)
    (h : rungHasEntry r rid v) : rungHasEntry r' rid v := by
  rcases h with ⟨e, he, hrid, hm⟩
  rcases List.mem_iff_getElem.mp he with ⟨j, hj, hget⟩
  refine ⟨r'.metrics.getD j default, ?_, ?_, ?_⟩
  · rw [List.getD_eq_getElem _ _ (by omega)]
    exact List.getElem_mem _
  · rw [(hf j).1, List.getD_eq_getElem _ _ hj, hget]
    exact hrid
  · rw [(hf j).2, List.getD_eq_getElem _ _ hj, hget]
    exact hm

theorem countOp_cons (o : Operation) (ops : List Operation) (op : Operation) :
    countOp (o :: ops) op = countOp ops op + if o = op then 1 else 0 := by
  simp [countOp, List.countP_cons]

theorem countOp_append (a b : List Operation) (op : Operation) :
    countOp (a ++ b) op = countOp a op + countOp b op :=
  List.countP_append _ _ _

theorem countTrainFor_append (a b : List Operation) (rid : Nat) :
    countTrainFor (a ++ b) rid = countTrainFor a rid + countTrainFor b rid :=
  List.countP_append _ _ _

theorem countTrainFor_trainAndValidate_ne (pid a b rid : Nat) (h : pid ≠ rid) :
    countTrainFor (trainAndValidate pid a b) rid = 0 := by
  simp [countTrainFor, trainAndValidate, List.countP_cons, h]

theorem countTrainFor_closeRungMetrics (ee : List Nat) (l : List trialMetric) (rid : Nat) :
    countTrainFor (closeRungMetrics ee l).2.2 rid = 0 := by
  induction l with
  | nil => rfl
  | cons t rest ih =>
    simp only [closeRungMetrics]
    by_cases hc : t.promoted = false ∧ t.closed = false
    · rw [if_pos hc]
      show countTrainFor (((if ee.contains t.requestID then [] else
        [Operation.close t.requestID]) ++ [Operation.close t.requestID]) ++
          (closeRungMetrics ee rest).2.2) rid = 0
      rw [countTrainFor_append, countTrainFor_append, ih]
      split_ifs <;> rfl
    · rw [if_neg hc]
      exact ih

theorem countTrainFor_closeRungsGo (ee : List Nat) (rs : List rung) (rid : Nat) :
    countTrainFor (closeRungsGo ee rs).2.2 rid = 0 := by
  induction rs with
  | nil => rfl
  | cons r rest ih =>
    simp only [closeRungsGo]
    by_cases ho : r.outstandingTrials > 0
    · rw [if_pos ho]
      rfl
    · rw [if_neg ho]
      show countTrainFor ((closeRungMetrics ee r.metrics).2.2 ++
        (closeRungsGo ee rest).2.2) rid = 0
      rw [countTrainFor_append, countTrainFor_closeRungMetrics, ih]

theorem contains_insertUnique_self (l : List Nat) (x : Nat) :
    (insertUnique l x).contains x = true := by
  rw [insertUnique]
  by_cases h : l.contains x
  · rw [if_pos h]
    exact h
  · rw [if_neg h]
    simp

theorem contains_insertUnique_of (l : List Nat) (x y : Nat) (h : l.contains y = true) :
    (insertUnique l x).contains y = true := by
  rw [insertUnique]
  by_cases hx : l.contains x
  · rw [if_pos hx]
    exact h
  · rw [if_neg hx]
    have hy : y ∈ l := by simpa using h
    simp [hy]

theorem promoteTail_ctx (s : asyncHalvingSearch) (ctx : Nat) (ops : List Operation)
    (added : Bool) : ctx ≤ (promoteTail s ctx ops added).2.1 := by
  simp only [promoteTail]
  split_ifs
  · exact Nat.le_succ ctx
  · exact le_refl ctx
  · exact Nat.le_succ ctx
  · exact le_refl ctx

theorem promoteLoop_ctx
    (recur : asyncHalvingSearch → Nat → Nat → ℚ → asyncHalvingSearch × Nat × List Operation)
    (hrec : ∀ s' c' p' m', c' ≤ (recur s' c' p' m').2.1) (rungIndex : Nat) :
    ∀ promos s ctx ops added, ctx ≤ (promoteLoop recur rungIndex s ctx promos ops added).2.1 := by
  intro promos
  induction promos with
  | nil =>
    intro s ctx ops added
    exact promoteTail_ctx _ _ _ _
  | cons pid rest ih =>
    intro s ctx ops added
    simp only [promoteLoop]
    split_ifs
    · exact hrec _ _ _ _
    · exact ih _ _ _ _

theorem promoteAux_ctx (fuel : Nat) :
    ∀ s ctx rid m, ctx ≤ (promoteAux fuel s ctx rid m).2.1 := by
  induction fuel with
  | zero =>
    intro s ctx rid m
    exact le_refl ctx
  | succ fuel ih =>
    intro s ctx rid m
    simp only [promoteAux]
    split_ifs
    · exact promoteTail_ctx _ _ _ _
    · exact promoteTail_ctx _ _ _ _
    · exact promoteLoop_ctx _ (fun s' c' p' m' => ih s' c' p' m') _ _ _ _ _ _

end Searcher

namespace Searcher

/-! ### Entry preservation: a recorded (trial, metric) pair never disappears -/

theorem rungHasEntry_congr (r r' : rung) (rid : Nat) (v : ℚ)
    (he : r'.metrics = r.metrics) (h : rungHasEntry r rid v) : rungHasEntry r' rid v := by
  rcases h with ⟨e, hm, h1, h2⟩
  exact ⟨e, he ▸ hm, h1, h2⟩

theorem rungHasEntry_closeOutRungs (s : asyncHalvingSearch) (k rid : Nat) (v : ℚ)
    (h : rungHasEntry (s.rungs.getD k default) rid v) :
    rungHasEntry ((closeOutRungs s).1.rungs.getD k default) rid v := by
  have hc := closeRungsGo_getD_metrics s.earlyExitTrials s.rungs k
  exact rungHasEntry_of_fields _ _ rid v hc.1 (fun j => ⟨(hc.2 j).1, (hc.2 j).2.1⟩) h

theorem rungHasEntry_modifyRungAt (s : asyncHalvingSearch) (j : Nat) (f : rung → rung)
    (hf : ∀ r, (f r).metrics = r.metrics) (k rid : Nat) (v : ℚ)
    (h : rungHasEntry (s.rungs.getD k default) rid v) :
    rungHasEntry ((modifyRungAt s j f).rungs.getD k default) rid v :=
  rungHasEntry_congr _ _ rid v (metrics_modifyRungAt s j f hf k) h

theorem rungHasEntry_promoteTail (s : asyncHalvingSearch) (ctx : Nat) (ops : List Operation)
    (added : Bool) (k rid : Nat) (v : ℚ)
    (h : rungHasEntry (s.rungs.getD k default) rid v) :
    rungHasEntry ((promoteTail s ctx ops added).1.rungs.getD k default) rid v := by
  have hcreate : rungHasEntry
      (({ modifyRungAt s 0 (fun r => { r with outstandingTrials := r.outstandingTrials + 1 }) with
          trialRungs := mapInsert s.trialRungs ctx 0 }).rungs.getD k default) rid v :=
    rungHasEntry_modifyRungAt s 0
      (fun r => { r with outstandingTrials := r.outstandingTrials + 1 }) (fun r => rfl) k rid v h
  simp only [promoteTail]
  split_ifs
  · exact rungHasEntry_closeOutRungs _ k rid v hcreate
  · exact rungHasEntry_closeOutRungs _ k rid v h
  · exact hcreate
  · exact h

theorem rungHasEntry_promoteLoop
    (recur : asyncHalvingSearch → Nat → Nat → ℚ → asyncHalvingSearch × Nat × List Operation)
    (hrec : ∀ s' c' p' m' k rid v, rungHasEntry (s'.rungs.getD k default) rid v →
      rungHasEntry ((recur s' c' p' m').1.rungs.getD k default) rid v) (rungIndex : Nat) :
    ∀ promos s ctx ops added k rid v, rungHasEntry (s.rungs.getD k default) rid v →
      rungHasEntry ((promoteLoop recur rungIndex s ctx promos ops added).1.rungs.getD k default)
        rid v := by
  intro promos
  induction promos with
  | nil =>
    intro s ctx ops added k rid v h
    exact rungHasEntry_promoteTail _ _ _ _ k rid v h
  | cons pid rest ih =>
    intro s ctx ops added k rid v h
    simp only [promoteLoop]
    have h1 : rungHasEntry
        (({ s with trialRungs := mapInsert s.trialRungs pid (rungIndex + 1) }).rungs.getD k
          default) rid v := h
    have h2 := rungHasEntry_modifyRungAt
      { s with trialRungs := mapInsert s.trialRungs pid (rungIndex + 1) } (rungIndex + 1)
      (fun r => { r with outstandingTrials := r.outstandingTrials + 1 }) (fun r => rfl)
      k rid v h1
    split_ifs
    · exact hrec _ _ _ _ k rid v h2
    · exact ih _ _ _ _ k rid v h2

theorem rungHasEntry_promoteAux (fuel : Nat) :
    ∀ s ctx rid' m k rid v, rungHasEntry (s.rungs.getD k default) rid v →
      rungHasEntry ((promoteAux fuel s ctx rid' m).1.rungs.getD k default) rid v := by
  induction fuel with
  | zero =>
    intro s ctx rid' m k rid v h
    exact h
  | succ fuel ih =>
    intro s ctx rid' m k rid v h
    simp only [promoteAux]
    have h1 := rungHasEntry_modifyRungAt s (mapGetD s.trialRungs rid' 0)
      (fun r => { r with outstandingTrials := r.outstandingTrials - 1 }) (fun r => rfl)
      k rid v h
    split_ifs
    · exact rungHasEntry_promoteTail _ _ _ _ k rid v h1
    · exact rungHasEntry_promoteTail _ _ _ _ k rid v h1
    · set s1 := modifyRungAt s (mapGetD s.trialRungs rid' 0)
        (fun r => { r with outstandingTrials := r.outstandingTrials - 1 }) with hs1
      refine rungHasEntry_promoteLoop _ (fun s' c' p' m' k' rid'' v' h' =>
        ih s' c' p' m' k' rid'' v' h') _ _ _ _ _ _ k rid v ?_
      show rungHasEntry ((s1.rungs.set (mapGetD s.trialRungs rid' 0) _).getD k default) rid v
      by_cases hk : k = mapGetD s.trialRungs rid' 0
      · by_cases hlen : mapGetD s.trialRungs rid' 0 < s1.rungs.length
        · rw [hk, getD_set_self _ _ _ _ hlen]
          rw [hk] at h1
          rcases h1 with ⟨e, hm, he1, he2⟩
          rcases promotionsAsync_entry_mem
            (s1.rungs.getD (mapGetD s.trialRungs rid' 0) default) rid' m
            s1.config.divisor e hm with ⟨e', hm', hr', hm2⟩
          exact ⟨e', hm', hr' ▸ he1, hm2 ▸ he2⟩
        · rw [hk, List.getD_eq_default _ _ (by rw [List.length_set]; omega)]
          rw [hk, List.getD_eq_default _ _ (by omega)] at h1
          exact h1
      · rw [getD_set_ne _ _ _ _ _ (by omega)]
        exact h1

/-! ### No `Train` is ever emitted for an early-exited trial -/

theorem countTrainFor_create_cons (c : Nat) (l : List Operation) (rid : Nat) :
    countTrainFor (Operation.create c :: l) rid = countTrainFor l rid := by
  simp [countTrainFor, List.countP_cons]

theorem countTrainFor_close (c rid : Nat) : countTrainFor [Operation.close c] rid = 0 := rfl

theorem promoteTail_noTrain (s : asyncHalvingSearch) (ctx : Nat) (ops : List Operation)
    (added : Bool) (id : Nat) (hid : id < ctx) (hops : countTrainFor ops id = 0) :
    countTrainFor (promoteTail s ctx ops added).2.2 id = 0 := by
  have hne : ctx ≠ id := by omega
  have hcr : countTrainFor (Operation.create ctx ::
      trainAndValidate ctx 0 (s.rungs.getD 0 default).stepsNeeded) id = 0 := by
    rw [countTrainFor_create_cons, countTrainFor_trainAndValidate_ne _ _ _ _ hne]
  simp only [promoteTail]
  split_ifs
  · show countTrainFor ((ops ++ Operation.create ctx :: trainAndValidate ctx 0 _) ++
      (closeRungsGo _ _).2.2) id = 0
    rw [countTrainFor_append, countTrainFor_append, hops, hcr, countTrainFor_closeRungsGo]
  · show countTrainFor (ops ++ (closeRungsGo _ _).2.2) id = 0
    rw [countTrainFor_append, hops, countTrainFor_closeRungsGo]
  · show countTrainFor (ops ++ Operation.create ctx :: trainAndValidate ctx 0 _) id = 0
    rw [countTrainFor_append, hops, hcr]
  · exact hops

theorem promoteLoop_noTrain
    (recur : asyncHalvingSearch → Nat → Nat → ℚ → asyncHalvingSearch × Nat × List Operation)
    (id : Nat)
    (hrec : ∀ s' c' p' m', s'.earlyExitTrials.contains id = true → id < c' →
      countTrainFor (recur s' c' p' m').2.2 id = 0) (rungIndex : Nat) :
    ∀ promos s ctx ops added, s.earlyExitTrials.contains id = true → id < ctx →
      countTrainFor ops id = 0 →
      countTrainFor (promoteLoop recur rungIndex s ctx promos ops added).2.2 id = 0 := by
  intro promos
  induction promos with
  | nil =>
    intro s ctx ops added hee hid hops
    exact promoteTail_noTrain _ _ _ _ id hid hops
  | cons pid rest ih =>
    intro s ctx ops added hee hid hops
    simp only [promoteLoop]
    split_ifs with hguard
    · exact hrec _ _ _ _ hee hid
    · have hpid : pid ≠ id := by
        intro he
        subst he
        exact hguard hee
      refine ih _ _ _ _ hee hid ?_
      rw [countTrainFor_append, hops, countTrainFor_trainAndValidate_ne _ _ _ _ hpid]

theorem promoteAux_noTrain (fuel : Nat) (id : Nat) :
    ∀ s ctx rid m, s.earlyExitTrials.contains id = true → id < ctx →
      countTrainFor (promoteAux fuel s ctx rid m).2.2 id = 0 := by
  induction fuel with
  | zero =>
    intro s ctx rid m _ _
    rfl
  | succ fuel ih =>
    intro s ctx rid m hee hid
    simp only [promoteAux]
    split_ifs
    · refine promoteTail_noTrain _ _ _ _ id hid ?_
      rfl
    · refine promoteTail_noTrain _ _ _ _ id hid ?_
      rfl
    · exact promoteLoop_noTrain _ id
        (fun s' c' p' m' hee' hid' => ih s' c' p' m' hee' hid') _ _ _ _ _ _ hee hid rfl

theorem step_noTrain (s : asyncHalvingSearch) (ctx : Nat) (e : Event) (id : Nat)
    (hee : s.earlyExitTrials.contains id = true) (hid : id < ctx) :
    countTrainFor (step s ctx e).2.2 id = 0 ∧
      (step s ctx e).1.earlyExitTrials.contains id = true ∧ ctx ≤ (step s ctx e).2.1 := by
  cases e with
  | validation rid ms =>
    simp only [step, validationCompleted]
    cases metricsGet ms s.config.metric with
    | error err => exact ⟨rfl, hee, le_refl _⟩
    | ok raw =>
      refine ⟨promoteAux_noTrain _ id _ _ _ _ hee hid, ?_, promoteAux_ctx _ _ _ _ _⟩
      show (promoteAux s.config.numRungs s ctx rid
        (if s.config.smallerIsBetter then raw else -raw)).1.earlyExitTrials.contains id = true
      rw [(promoteAux_frame s.config.numRungs s ctx rid
        (if s.config.smallerIsBetter then raw else -raw)).2.2]
      exact hee
  | exitedEarly rid =>
    have hee1 : (insertUnique s.earlyExitTrials rid).contains id = true :=
      contains_insertUnique_of _ _ _ hee
    refine ⟨promoteAux_noTrain _ id _ _ _ _ hee1 hid, ?_, promoteAux_ctx _ _ _ _ _⟩
    show (promoteAux s.config.numRungs
      { s with earlyExitTrials := insertUnique s.earlyExitTrials rid } ctx rid
        ashaExitedMetricValue).1.earlyExitTrials.contains id = true
    rw [(promoteAux_frame s.config.numRungs
      { s with earlyExitTrials := insertUnique s.earlyExitTrials rid } ctx rid
        ashaExitedMetricValue).2.2]
    exact hee1

theorem runEvents_noTrain (id : Nat) :
    ∀ events s ctx, s.earlyExitTrials.contains id = true → id < ctx →
      countTrainFor (runEvents s ctx events).2.2 id = 0 := by
  intro events
  induction events with
  | nil =>
    intro s ctx _ _
    rfl
  | cons e es ih =>
    intro s ctx hee hid
    have h := step_noTrain s ctx e id hee hid
    show countTrainFor ((step s ctx e).2.2 ++ _) id = 0
    rw [countTrainFor_append, h.1, ih _ _ h.2.1 (by omega)]

end Searcher

namespace Searcher

/-! ### No `Close` is emitted for an early-exited trial that reached the top -/

theorem countOp_closeRungMetrics_promoted (ee : List Nat) (l : List trialMetric) (id : Nat)
    (h : ∀ t ∈ l, t.requestID = id → t.promoted = true) :
    countOp (closeRungMetrics ee l).2.2 (Operation.close id) = 0 := by
  induction l with
  | nil => rfl
  | cons t rest ih =>
    simp only [closeRungMetrics]
    by_cases hc : t.promoted = false ∧ t.closed = false
    · rw [if_pos hc]
      have hne : t.requestID ≠ id := by
        intro he
        have := h t (by simp) he
        rw [this] at hc
        cases hc.1
      have hcl : countOp [Operation.close t.requestID] (Operation.close id) = 0 := by
        rw [countOp_cons]
        simp [countOp, hne]
      have hrest := ih (fun t ht he => h t (by simp [ht]) he)
      show countOp (((if ee.contains t.requestID then [] else [Operation.close t.requestID]) ++
          [Operation.close t.requestID]) ++ (closeRungMetrics ee rest).2.2)
        (Operation.close id) = 0
      by_cases hg : ee.contains t.requestID
      · rw [if_pos hg, countOp_append, countOp_append, hcl, hrest]
        rfl
      · rw [if_neg hg, countOp_append, countOp_append, hcl, hrest]
    · rw [if_neg hc]
      exact ih (fun t ht he => h t (by simp [ht]) he)

theorem countOp_closeRungsGo_promoted (ee : List Nat) (rs : List rung) (id : Nat)
    (h : ∀ r ∈ rs, ∀ t ∈ r.metrics, t.requestID = id → t.promoted = true) :
    countOp (closeRungsGo ee rs).2.2 (Operation.close id) = 0 := by
  induction rs with
  | nil => rfl
  | cons r rest ih =>
    simp only [closeRungsGo]
    by_cases ho : r.outstandingTrials > 0
    · rw [if_pos ho]
      rfl
    · rw [if_neg ho]
      show countOp ((closeRungMetrics ee r.metrics).2.2 ++ (closeRungsGo ee rest).2.2)
        (Operation.close id) = 0
      rw [countOp_append, countOp_closeRungMetrics_promoted ee r.metrics id
        (fun t ht he => h r (by simp) t ht he),
        ih (fun r' hr' t ht he => h r' (by simp [hr']) t ht he)]

theorem countOp_close_trainAndValidate (pid a b id : Nat) :
    countOp (trainAndValidate pid a b) (Operation.close id) = 0 := rfl

theorem promotedEntries_modifyRungAt (s : asyncHalvingSearch) (j : Nat) (f : rung → rung)
    (hf : ∀ r, (f r).metrics = r.metrics) (id : Nat)
    (h : ∀ r ∈ s.rungs, ∀ t ∈ r.metrics, t.requestID = id → t.promoted = true) :
    ∀ r ∈ (modifyRungAt s j f).rungs, ∀ t ∈ r.metrics, t.requestID = id → t.promoted = true := by
  intro r hr t ht he
  rcases mem_modifyAt f j s.rungs r hr with hr' | ⟨b, hb, rfl⟩
  · exact h r hr' t ht he
  · rw [hf b] at ht
    exact h b hb t ht he

theorem promoteTail_noClose (s : asyncHalvingSearch) (ctx : Nat) (ops : List Operation)
    (added : Bool) (id : Nat) (hops : countOp ops (Operation.close id) = 0)
    (hall : ∀ r ∈ s.rungs, ∀ t ∈ r.metrics, t.requestID = id → t.promoted = true) :
    countOp (promoteTail s ctx ops added).2.2 (Operation.close id) = 0 := by
  have hcr : countOp (Operation.create ctx ::
      trainAndValidate ctx 0 (s.rungs.getD 0 default).stepsNeeded) (Operation.close id) = 0 := by
    rw [countOp_cons, countOp_close_trainAndValidate]
    simp
  have hall' := promotedEntries_modifyRungAt s 0
    (fun r => { r with outstandingTrials := r.outstandingTrials + 1 }) (fun r => rfl) id hall
  simp only [promoteTail]
  split_ifs
  · show countOp ((ops ++ Operation.create ctx :: trainAndValidate ctx 0 _) ++
      (closeRungsGo _ _).2.2) (Operation.close id) = 0
    rw [countOp_append, countOp_append, hops, hcr,
      countOp_closeRungsGo_promoted _ _ id hall']
  · show countOp (ops ++ (closeRungsGo _ _).2.2) (Operation.close id) = 0
    rw [countOp_append, hops, countOp_closeRungsGo_promoted _ _ id hall]
  · show countOp (ops ++ Operation.create ctx :: trainAndValidate ctx 0 _)
      (Operation.close id) = 0
    rw [countOp_append, hops, hcr]
  · exact hops

theorem promoteAux_top_noClose (fuel : Nat) (s : asyncHalvingSearch) (ctx id : Nat) (m : ℚ)
    (hee : s.earlyExitTrials.contains id = true)
    (htop : mapGetD s.trialRungs id 0 = s.config.numRungs - 1)
    (hall : ∀ r ∈ s.rungs, ∀ t ∈ r.metrics, t.requestID = id → t.promoted = true) :
    countOp (promoteAux fuel s ctx id m).2.2 (Operation.close id) = 0 := by
  cases fuel with
  | zero => rfl
  | succ fuel =>
    simp only [promoteAux]
    have hall1 := promotedEntries_modifyRungAt s (mapGetD s.trialRungs id 0)
      (fun r => { r with outstandingTrials := r.outstandingTrials - 1 }) (fun r => rfl) id hall
    split_ifs with h1 h2
    · exact promoteTail_noClose _ _ _ _ id rfl hall1
    · exact absurd hee h2
    · exact absurd htop h1

/-- C5 (amended): for every trial on which `trial_exited_early` is called:
(a) the trial is recorded in `early_exit` and (when its rung is below the top
and exists) ranked at its current rung with the worst possible metric value;
(b) no `Train` operation for it is emitted by that call or by any later call;
(c) when the recursive promote reaches the top rung with an early-exited trial
whose recorded entries are all promoted, no `Close` for it is emitted — the
code suppresses the top-rung `Close` for early-exited trials (rather than the
claimed single `Close`). -/
theorem c5_earlyExit_amended :
    (∀ s ctx rid, mapGetD s.trialRungs rid 0 < s.config.numRungs - 1 →
      mapGetD s.trialRungs rid 0 < s.rungs.length →
      (trialExitedEarly s ctx rid).1.earlyExitTrials.contains rid = true ∧
        rungHasEntry
          ((trialExitedEarly s ctx rid).1.rungs.getD (mapGetD s.trialRungs rid 0) default)
          rid ashaExitedMetricValue) ∧
    (∀ s ctx rid events, rid < ctx →
      countTrainFor (trialExitedEarly s ctx rid).2.2 rid = 0 ∧
        countTrainFor (runEvents (trialExitedEarly s ctx rid).1
          (trialExitedEarly s ctx rid).2.1 events).2.2 rid = 0) ∧
    (∀ fuel s ctx id m, s.earlyExitTrials.contains id = true →
      mapGetD s.trialRungs id 0 = s.config.numRungs - 1 →
      (∀ r ∈ s.rungs, ∀ t ∈ r.metrics, t.requestID = id → t.promoted = true) →
      countOp (promoteAux fuel s ctx id m).2.2 (Operation.close id) = 0) := by
  refine ⟨?_, ?_, ?_⟩
  · intro s ctx rid hlow hlen
    set s1 : asyncHalvingSearch :=
      { s with earlyExitTrials := insertUnique s.earlyExitTrials rid } with hs1
    constructor
    · show (promote s1 ctx rid ashaExitedMetricValue).1.earlyExitTrials.contains rid = true
      rw [promote, (promoteAux_frame _ _ _ _ _).2.2]
      exact contains_insertUnique_self _ _
    · show rungHasEntry ((promote s1 ctx rid ashaExitedMetricValue).1.rungs.getD
        (mapGetD s.trialRungs rid 0) default) rid ashaExitedMetricValue
      rw [promote]
      cases hnr : s.config.numRungs with
      | zero => omega
      | succ nr =>
        simp only [promoteAux]
        rw [if_neg (by
          show ¬ mapGetD s.trialRungs rid 0 = _
          have : (modifyRungAt s1 (mapGetD s.trialRungs rid 0)
            (fun r => { r with outstandingTrials := r.outstandingTrials - 1 })).config.numRungs
              = nr + 1 := hnr
          omega)]
        refine rungHasEntry_promoteLoop _ (fun s' c' p' m' k' rid'' v' h' =>
          rungHasEntry_promoteAux nr s' c' p' m' k' rid'' v' h') _ _ _ _ _ _
          (mapGetD s.trialRungs rid 0) rid ashaExitedMetricValue ?_
        set s2 := modifyRungAt s1 (mapGetD s.trialRungs rid 0)
          (fun r => { r with outstandingTrials := r.outstandingTrials - 1 }) with hs2
        show rungHasEntry ((s2.rungs.set (mapGetD s.trialRungs rid 0) _).getD
          (mapGetD s.trialRungs rid 0) default) rid ashaExitedMetricValue
        have hlen2 : mapGetD s.trialRungs rid 0 < s2.rungs.length := by
          show mapGetD s.trialRungs rid 0 < (modifyAt _ _ s1.rungs).length
          rw [modifyAt_length]
          exact hlen
        rw [getD_set_self _ _ _ _ hlen2]
        exact promotionsAsync_new_entry _ rid ashaExitedMetricValue _
  · intro s ctx rid events hrid
    have hee1 : (insertUnique s.earlyExitTrials rid).contains rid = true :=
      contains_insertUnique_self _ _
    constructor
    · exact promoteAux_noTrain _ rid _ _ _ _ hee1 hrid
    · refine runEvents_noTrain rid events _ _ ?_ ?_
      · show (promote { s with earlyExitTrials := insertUnique s.earlyExitTrials rid }
          ctx rid ashaExitedMetricValue).1.earlyExitTrials.contains rid = true
        rw [promote, (promoteAux_frame _ _ _ _ _).2.2]
        exact hee1
      · show rid < (promoteAux s.config.numRungs
          { s with earlyExitTrials := insertUnique s.earlyExitTrials rid } ctx rid
          ashaExitedMetricValue).2.1
        have := promoteAux_ctx s.config.numRungs
          { s with earlyExitTrials := insertUnique s.earlyExitTrials rid } ctx rid
          ashaExitedMetricValue
        omega
  · intro fuel s ctx id m hee htop hall
    exact promoteAux_top_noClose fuel s ctx id m hee htop hall

/-- C5 counterexample: in the valid `cfgC` run both initial trials exit early;
trial 0 is promoted to the top rung by the recursive promote at worst score,
yet the concatenated operation stream contains no `Close{0}` at all (and the
trial is counted as completed), refuting the claimed single `Close`. -/
theorem c5_earlyExit_cex :
    validEvents (initialOperations (newAsyncHalvingSearch cfgC) 0).1
        (initialOperations (newAsyncHalvingSearch cfgC) 0).2.1 evsC = true ∧
      (runASHA cfgC evsC).1.earlyExitTrials.contains 0 = true ∧
      mapGetD (runASHA cfgC evsC).1.trialRungs 0 0 = cfgC.numRungs - 1 ∧
      (runASHA cfgC evsC).1.trialsCompleted = 1 ∧
      countOp (runASHA cfgC evsC).2.2 (Operation.close 0) = 0 := by
  exact ⟨by decide, by decide, by decide, by decide, by decide⟩

/-- Witness for the amended C5: a concrete early exit at rung 0 of `cfgC`
(recorded and ranked worst), no `Train` for it, and a concrete top-rung
promote of the early-exited trial 0 in the final `cfgC` state emitting no
`Close{0}`. -/
theorem c5_earlyExit_amended_witness :
    ((trialExitedEarly (initialOperations (newAsyncHalvingSearch cfgC) 0).1
        (initialOperations (newAsyncHalvingSearch cfgC) 0).2.1 0).1.earlyExitTrials.contains 0 =
      true) ∧
    countTrainFor (trialExitedEarly (initialOperations (newAsyncHalvingSearch cfgC) 0).1
        (initialOperations (newAsyncHalvingSearch cfgC) 0).2.1 0).2.2 0 = 0 ∧
    countOp (promoteAux 2 (runASHA cfgC evsC).1 (runASHA cfgC evsC).2.1 0
        ashaExitedMetricValue).2.2 (Operation.close 0) = 0 :=
  ⟨(c5_earlyExit_amended.1 (initialOperations (newAsyncHalvingSearch cfgC) 0).1
      (initialOperations (newAsyncHalvingSearch cfgC) 0).2.1 0 (by decide) (by decide)).1,
    (c5_earlyExit_amended.2.1 (initialOperations (newAsyncHalvingSearch cfgC) 0).1
      (initialOperations (newAsyncHalvingSearch cfgC) 0).2.1 0 [] (by decide)).1,
    c5_earlyExit_amended.2.2 2 (runASHA cfgC evsC).1 (runASHA cfgC evsC).2.1 0
      ashaExitedMetricValue (by decide) (by decide) (by decide)⟩

end Searcher
